import Mathlib

/-!
# btcpool `Statistics.h`: sliding window and day statistics

A shallow embedding of `StatsWindow<uint64_t>`, `StatsShareDay` and `WorkerKey` from
`src/Statistics.h`, with theorems about them.

Conventions of the embedding.

* `uint64_t` cells are natural numbers and every `+=` on them is reduced modulo `2 ^ 64`.
* `int64_t` ring indices and the `int` window size and length are integers.
  `StatsWindow.Machine.insert` wraps the two `int64_t` expressions of the tests of `insert`,
  `curRingIdx + windowSize_` and `curRingIdx - maxRingIdx_`, modulo `2 ^ 64`, as the compiled
  program does: an insert at `INT64_MAX` is dropped as stale. `StatsWindow.insert` is the same
  function with exact arithmetic, the form the invariants are proved on; `machine_insert_eq`
  proves that the two agree whenever the window has a positive size and a top index of at least
  `-1`, and the ring index is not negative with `idx + windowSize_ ≤ INT64_MAX`. In `sum` the
  difference `beginRingIdx - len` is exact.
* `elements_[i % windowSize_]` is a checked access: a zero `windowSize_`, or a subscript outside
  the vector (a negative remainder of the truncating `%` converts to a huge `size_t`), is
  undefined behaviour in C++ and is `none` here. `none` never stands for anything else.
-/

namespace BtcPool

/-- The modulus of `uint64_t` arithmetic. -/
def u64Mod : Nat := 2 ^ 64

/-- `a + b` on `uint64_t`. -/
def addU64 (a b : Nat) : Nat := (a + b) % u64Mod

/-! ## StatsWindow -/

/-- The three members of `StatsWindow<uint64_t>`. -/
structure StatsWindow where
  maxRingIdx_ : Int
  windowSize_ : Int
  elements_ : List Nat
  deriving DecidableEq

namespace StatsWindow

/-- The position `i % windowSize_` used to subscript a vector of `size` cells. C++ `%` truncates
towards zero (`Int.tmod`); the remainder is converted to `size_t`, so a negative one is out of
range. `none`: division by zero or a subscript outside the vector. -/
def ringPos (i W : Int) (size : Nat) : Option Nat :=
  if W = 0 then none
  else if 0 ≤ Int.tmod i W ∧ (Int.tmod i W).toNat < size then some (Int.tmod i W).toNat
  else none

/-- Read `elements_[i % windowSize_]`. -/
def elemAt (w : StatsWindow) (i : Int) : Option Nat :=
  match ringPos i w.windowSize_ w.elements_.length with
  | some k => w.elements_[k]?
  | none => none

/-- Overwrite `elements_[i % windowSize_]` with `f` of its present value. -/
def elemUpdate (w : StatsWindow) (i : Int) (f : Nat → Nat) : Option StatsWindow :=
  match ringPos i w.windowSize_ w.elements_.length with
  | some k => some { w with elements_ := w.elements_.set k (f (w.elements_.getD k 0)) }
  | none => none

/-- The constructor `StatsWindow(windowSize)`: `maxRingIdx_(-1)`, `windowSize_(windowSize)`,
`elements_(windowSize)` (value-initialised cells). A negative size makes the vector constructor
throw, so no object exists then; the definition is meant for `0 ≤ windowSize`. -/
def construct (windowSize : Int) : StatsWindow :=
  { maxRingIdx_ := -1, windowSize_ := windowSize, elements_ := List.replicate windowSize.toNat 0 }

/-- `clear()`: `maxRingIdx_ = -1`, then the vector is emptied and resized to `windowSize_`
(value-initialised cells; `windowSize_` is not negative in any constructed window). -/
def clear (w : StatsWindow) : StatsWindow :=
  { w with maxRingIdx_ := -1, elements_ := List.replicate w.windowSize_.toNat 0 }

/-- The loop `while (maxRingIdx_ < curRingIdx) { maxRingIdx_++; elements_[maxRingIdx_ %
windowSize_] = 0; }` of `insert`. Every round raises `maxRingIdx_` by one, so
`(curRingIdx - maxRingIdx_).toNat` rounds reach the exit; that is the count `insert` passes. -/
def insertAdvance (curRingIdx : Int) : Nat → StatsWindow → Option StatsWindow
  | 0, w => some w
  | n + 1, w =>
    if w.maxRingIdx_ < curRingIdx then
      match elemUpdate { w with maxRingIdx_ := w.maxRingIdx_ + 1 } (w.maxRingIdx_ + 1)
          (fun _ => 0) with
      | some w1 => insertAdvance curRingIdx n w1
      | none => none
    else some w

/-- `insert(curRingIdx, val)` with exact index arithmetic: the returned flag and the state after
the call. `Machine.insert` is the same function with the `int64_t` arithmetic of the two
tests. -/
def insert (w : StatsWindow) (curRingIdx : Int) (val : Nat) : Option (Bool × StatsWindow) :=
  if w.maxRingIdx_ > curRingIdx + w.windowSize_ then some (false, w)
  else
    let w1 :=
      if w.maxRingIdx_ = -1 ∨ curRingIdx - w.maxRingIdx_ > w.windowSize_ then
        { clear w with maxRingIdx_ := curRingIdx }
      else w
    match insertAdvance curRingIdx (curRingIdx - w1.maxRingIdx_).toNat w1 with
    | none => none
    | some w2 =>
      match elemUpdate w2 curRingIdx (fun x => addU64 x val) with
      | none => none
      | some w3 => some (true, w3)

/-- The loop `while (beginRingIdx > endRingIdx) { sum += elements_[beginRingIdx % windowSize_];
beginRingIdx--; }` of `sum`, run for the `(beginRingIdx - endRingIdx).toNat` rounds it takes. -/
def sumLoop (w : StatsWindow) (endRingIdx : Int) : Nat → Int → Nat → Option Nat
  | 0, _, acc => some acc
  | n + 1, b, acc =>
    if b > endRingIdx then
      match elemAt w b with
      | some x => sumLoop w endRingIdx n (b - 1) (addU64 acc x)
      | none => none
    else some acc

/-- `sum(beginRingIdx, len)`. -/
def sum (w : StatsWindow) (beginRingIdx : Int) (len : Int) : Option Nat :=
  if min len w.windowSize_ ≤ 0 ∨ beginRingIdx - min len w.windowSize_ ≥ w.maxRingIdx_ then
    some 0
  else
    sumLoop w (beginRingIdx - min len w.windowSize_)
      ((if beginRingIdx > w.maxRingIdx_ then w.maxRingIdx_ else beginRingIdx)
        - (beginRingIdx - min len w.windowSize_)).toNat
      (if beginRingIdx > w.maxRingIdx_ then w.maxRingIdx_ else beginRingIdx) 0

/-- A run of `insert` calls, in order, dropping the returned flags. -/
def insertAll : StatsWindow → List (Int × Nat) → Option StatsWindow
  | w, [] => some w
  | w, p :: rest =>
    match insert w p.1 p.2 with
    | some r => insertAll r.2 rest
    | none => none

/-- No insert of the run aims exactly `windowSize_` below the top index the window has just before
that insert. -/
def offBoundary : StatsWindow → List (Int × Nat) → Bool
  | _, [] => true
  | w, p :: rest =>
    decide (p.1 ≠ w.maxRingIdx_ - w.windowSize_) &&
      match insert w p.1 p.2 with
      | some r => offBoundary r.2 rest
      | none => true

/-- The invariant of the class: the vector has `windowSize_` cells. The constructor and `clear`
establish it and no member changes the size of the vector. -/
def WF (w : StatsWindow) : Prop :=
  0 ≤ w.windowSize_ ∧ w.elements_.length = w.windowSize_.toNat

instance (w : StatsWindow) : Decidable (WF w) := by
  unfold WF; infer_instance

/-- A usable window of size `W`: a positive size, the class invariant, and a top index that is
the sentinel `-1` or a ring index that is not negative. -/
structure Ok (W : Int) (w : StatsWindow) : Prop where
  pos : 0 < W
  size : w.windowSize_ = W
  len : w.elements_.length = W.toNat
  top : -1 ≤ w.maxRingIdx_

/-! ### Reference sums over the log of a run of inserts -/

/-- Total of the values of the inserts of `log` made at ring index `i`. -/
def valuesAt (log : List (Int × Nat)) (i : Int) : Nat :=
  ((log.filter (fun p => p.1 = i)).map Prod.snd).sum

/-- Total of the values of the inserts of `log` whose ring index lies in the half-open range
`(lo, hi]`. -/
def valuesIn (log : List (Int × Nat)) (lo hi : Int) : Nat :=
  ((log.filter (fun p => lo < p.1 ∧ p.1 ≤ hi)).map Prod.snd).sum

/-- Total of the values of the inserts of `log` whose ring index is greater than `lo`. -/
def valuesAbove (log : List (Int × Nat)) (lo : Int) : Nat :=
  ((log.filter (fun p => lo < p.1)).map Prod.snd).sum

/-- The window `w` holds the inserts of `log`: it is usable, no logged index is above the top
index, and the cell of every live ring index that is not negative holds the total inserted at
that index. -/
structure Tracks (W : Int) (w : StatsWindow) (log : List (Int × Nat)) : Prop where
  ok : Ok W w
  seen : ∀ p ∈ log, p.1 ≤ w.maxRingIdx_
  cells : ∀ i, 0 ≤ i → w.maxRingIdx_ - W < i → i ≤ w.maxRingIdx_ →
    w.elements_[(i % W).toNat]? = some (valuesAt log i % u64Mod)

end StatsWindow

/-! ### More members of `StatsWindow` and runs of calls -/

/-- `a * b` on `uint64_t`. -/
def mulU64 (a b : Nat) : Nat := (a * b) % u64Mod

namespace StatsWindow

/-- The bound `windowSize_` of the loop of `mapMultiply`, compared with a `size_t` counter: the
`int32_t` is converted to `size_t`, so a negative one wraps to `2 ^ 64 + windowSize_`. -/
def sizeBound (W : Int) : Nat :=
  if 0 ≤ W then W.toNat else (2 ^ 64 + W).toNat

/-- The loop `for (size_t i = 0; i < windowSize_; i++) { elements_[i] *= val; }`, run for the
`bound - i` rounds it takes. `none`: a subscript outside the vector. -/
def mapMultiplyLoop (val bound : Nat) : Nat → Nat → List Nat → Option (List Nat)
  | 0, _, es => some es
  | n + 1, i, es =>
    if i < bound then
      if i < es.length then
        mapMultiplyLoop val bound n (i + 1) (es.set i (mulU64 (es.getD i 0) val))
      else none
    else some es

/-- `mapMultiply(val)`. -/
def mapMultiply (w : StatsWindow) (val : Nat) : Option StatsWindow :=
  match mapMultiplyLoop val (sizeBound w.windowSize_) (sizeBound w.windowSize_) 0 w.elements_ with
  | some es => some { w with elements_ := es }
  | none => none

/-- Two calls in a row at the same ring index, `insert(i, a)` then `insert(i, b)`: the two
returned flags in call order and the state after both. -/
def insertTwice (w : StatsWindow) (i : Int) (a b : Nat) : Option ((Bool × Bool) × StatsWindow) :=
  match insert w i a with
  | none => none
  | some r1 =>
    match insert r1.2 i b with
    | none => none
    | some r2 => some ((r1.1, r2.1), r2.2)

/-- A call of `clear()` or of `insert(idx, val)`. -/
inductive Call where
  | clear
  | insert (idx : Int) (val : Nat)
  deriving DecidableEq

/-- The ring index a call passes, if it passes one. -/
def Call.idx : Call → Option Int
  | Call.clear => none
  | Call.insert idx _ => some idx

/-- A run of `clear()` and `insert` calls, in order. -/
def runCalls : StatsWindow → List Call → Option StatsWindow
  | w, [] => some w
  | w, Call.clear :: rest => runCalls (clear w) rest
  | w, Call.insert idx val :: rest =>
    match insert w idx val with
    | some r => runCalls r.2 rest
    | none => none

/-- Reference total of the cells of the `n` ring indices `b, b - 1, …, b - n + 1`, each cell
taken at the position `i mod W` of the vector. -/
def cellsDown (es : List Nat) (W : Int) : Nat → Int → Nat
  | 0, _ => 0
  | n + 1, b => es.getD (b % W).toNat 0 + cellsDown es W n (b - 1)

end StatsWindow

/-! ### `insert` with the arithmetic of `int64_t` -/

/-- The largest `int64_t`. -/
def INT64_MAX : Int := 9223372036854775807

/-- The smallest `int64_t`. -/
def INT64_MIN : Int := -9223372036854775808

/-- The value an `int64_t` holds after a sum or difference whose exact result is `x`: inside
`[-2 ^ 63, 2 ^ 63)` it is `x`, outside the result wraps modulo `2 ^ 64`, as it does in the
compiled program. -/
def wrapI64 (x : Int) : Int :=
  (x + 9223372036854775808) % 18446744073709551616 - 9223372036854775808

namespace StatsWindow

namespace Machine

/-- `insert(curRingIdx, val)` with the two `int64_t` expressions of its tests, `curRingIdx +
windowSize_` and `curRingIdx - maxRingIdx_`, wrapped to `int64_t`. The loop and the subscripts
are those of `StatsWindow.insert`: inside the loop `maxRingIdx_ < curRingIdx`, so `maxRingIdx_++`
stays in range. -/
def insert (w : StatsWindow) (curRingIdx : Int) (val : Nat) : Option (Bool × StatsWindow) :=
  if w.maxRingIdx_ > wrapI64 (curRingIdx + w.windowSize_) then some (false, w)
  else
    let w1 :=
      if w.maxRingIdx_ = -1 ∨ wrapI64 (curRingIdx - w.maxRingIdx_) > w.windowSize_ then
        { clear w with maxRingIdx_ := curRingIdx }
      else w
    match insertAdvance curRingIdx (curRingIdx - w1.maxRingIdx_).toNat w1 with
    | none => none
    | some w2 =>
      match elemUpdate w2 curRingIdx (fun x => addU64 x val) with
      | none => none
      | some w3 => some (true, w3)

/-- A run of `insert` calls, in order, dropping the returned flags. -/
def insertAll : StatsWindow → List (Int × Nat) → Option StatsWindow
  | w, [] => some w
  | w, p :: rest =>
    match insert w p.1 p.2 with
    | some r => insertAll r.2 rest
    | none => none

/-- No insert of the run aims exactly `windowSize_` below the top index the window has just before
that insert. -/
def offBoundary : StatsWindow → List (Int × Nat) → Bool
  | _, [] => true
  | w, p :: rest =>
    decide (p.1 ≠ w.maxRingIdx_ - w.windowSize_) &&
      match insert w p.1 p.2 with
      | some r => offBoundary r.2 rest
      | none => true

end Machine

end StatsWindow

/-! ## StatsShareDay -/

/-- Modelled from the spec: `Share::Result` of `Stratum.h`, a header that is not among the
sources. The specification gives the results as ACCEPT, REJECT and further reject subcodes. -/
inductive ShareResult where
  | ACCEPT
  | REJECT
  | other (code : Nat)
  deriving DecidableEq

/-- Modelled from the spec: the members of `Share` (`Stratum.h`) that `StatsShareDay` reads, the
weight `share_` (`uint64_t`, the `shareValue` of the specification) and the result. The value
of `Share::score()`, a `double`, is passed to `processShare` as a function of the share. -/
structure Share where
  share_ : Nat
  result_ : ShareResult
  deriving DecidableEq

/-- The members of `StatsShareDay`. The arrays of 24 hours are functions on `Fin 24`; `double` is
kept abstract as a type `F` with an addition and a zero. -/
structure StatsShareDay (F : Type) where
  shareAccept1h_ : Fin 24 → Nat
  shareReject1h_ : Fin 24 → Nat
  score1h_ : Fin 24 → F
  shareAccept1d_ : Nat
  shareReject1d_ : Nat
  score1d_ : F
  modifyFlag_ : Nat

namespace StatsShareDay

variable {F : Type}

/-- The constructor `StatsShareDay()`: `memset` clears every member. -/
def construct [Zero F] : StatsShareDay F :=
  { shareAccept1h_ := fun _ => 0, shareReject1h_ := fun _ => 0, score1h_ := fun _ => 0,
    shareAccept1d_ := 0, shareReject1d_ := 0, score1d_ := 0, modifyFlag_ := 0 }

/-- The `if`/`else` of `processShare`: an ACCEPT share is added to the accept counter and the
score of its hour and of the day, any other share to the reject counter of its hour and of the
day. -/
def tally [Add F] (score : Share → F) (s : StatsShareDay F) (i : Fin 24) (share : Share) :
    StatsShareDay F :=
  if share.result_ = ShareResult.ACCEPT then
    { s with
      shareAccept1h_ := Function.update s.shareAccept1h_ i
        (addU64 (s.shareAccept1h_ i) share.share_)
      shareAccept1d_ := addU64 s.shareAccept1d_ share.share_
      score1h_ := Function.update s.score1h_ i (s.score1h_ i + score share)
      score1d_ := s.score1d_ + score share }
  else
    { s with
      shareReject1h_ := Function.update s.shareReject1h_ i
        (addU64 (s.shareReject1h_ i) share.share_)
      shareReject1d_ := addU64 s.shareReject1d_ share.share_ }

/-- `processShare(hourIdx, share)`. An `hourIdx` of 24 or more subscripts the arrays out of
range and is `none`. The last statement is the source's `modifyFlag_ &= (0x01U << hourIdx)`. -/
def processShare [Add F] (score : Share → F) (s : StatsShareDay F) (hourIdx : Nat)
    (share : Share) : Option (StatsShareDay F) :=
  if h : hourIdx < 24 then
    some { tally score s ⟨hourIdx, h⟩ share with
      modifyFlag_ := (tally score s ⟨hourIdx, h⟩ share).modifyFlag_ &&& (1 <<< hourIdx) }
  else none

end StatsShareDay

namespace StatsShareDay

variable {F : Type}

/-- A run of `processShare` calls, in order. -/
def processAll [Add F] (score : Share → F) :
    StatsShareDay F → List (Nat × Share) → Option (StatsShareDay F)
  | s, [] => some s
  | s, p :: rest =>
    match processShare score s p.1 p.2 with
    | some s1 => processAll score s1 rest
    | none => none

/-- Reference total of `share_` over the shares of a run whose result is ACCEPT. -/
def acceptTotal (seq : List (Nat × Share)) : Nat :=
  ((seq.filter (fun p => p.2.result_ = ShareResult.ACCEPT)).map (fun p => p.2.share_)).sum

/-- Reference total of `share_` over the shares of a run whose result is not ACCEPT. -/
def rejectTotal (seq : List (Nat × Share)) : Nat :=
  ((seq.filter (fun p => p.2.result_ ≠ ShareResult.ACCEPT)).map (fun p => p.2.share_)).sum

/-- Total of the 24 hourly entries of a counter array. -/
def hourTotal (f : Fin 24 → Nat) : Nat := Finset.sum Finset.univ f

/-- The hourly entries and the daily counter agree modulo `2 ^ 64`, for accepts and rejects. -/
def Balanced {F : Type} (s : StatsShareDay F) : Prop :=
  hourTotal s.shareAccept1h_ % u64Mod = s.shareAccept1d_ % u64Mod ∧
  hourTotal s.shareReject1h_ % u64Mod = s.shareReject1d_ % u64Mod

end StatsShareDay

/-! ## WorkerKey -/

/-- The two members of `WorkerKey`, an `int32_t` and an `int64_t`. -/
structure WorkerKey where
  userId_ : Int
  workerId_ : Int
  deriving DecidableEq

namespace WorkerKey

/-- `operator==`: `true` when both members agree, `false` otherwise. -/
def opEq (k r : WorkerKey) : Bool :=
  if k.userId_ = r.userId_ ∧ k.workerId_ = r.workerId_ then true else false

/-- `std::hash<WorkerKey>::operator()`: `h1 ^ (h2 << 1)` on `size_t`, where `h1` and `h2` are
the values of the library hashes `std::hash<int32_t>` and `std::hash<int64_t>`, passed here as
the functions `hash32` and `hash64`. -/
def hash (hash32 hash64 : Int → Nat) (k : WorkerKey) : Nat :=
  hash32 k.userId_ ^^^ ((hash64 k.workerId_ <<< 1) % 2 ^ 64)

end WorkerKey

/-! ## Lemmas on cell positions -/

namespace StatsWindow

theorem ringPos_nonneg {W i : Int} (hW : 0 < W) (hi : 0 ≤ i) :
    ringPos i W W.toNat = some (i % W).toNat := by
  have h1 : Int.tmod i W = i % W := Int.tmod_eq_emod hi (le_of_lt hW)
  have h2 : 0 ≤ i % W := Int.emod_nonneg i (by omega)
  have h3 : i % W < W := Int.emod_lt_of_pos i hW
  unfold ringPos
  rw [h1]
  have h4 : (i % W).toNat < W.toNat := by omega
  simp [h2, h4]
  omega

theorem pos_lt {W i : Int} (hW : 0 < W) : (i % W).toNat < W.toNat := by
  have h2 : 0 ≤ i % W := Int.emod_nonneg i (by omega)
  have h3 : i % W < W := Int.emod_lt_of_pos i hW
  omega

/-- Two different ring indices less than a window apart occupy different cells. -/
theorem pos_ne {W i j : Int} (hW : 0 < W) (hij : i ≠ j) (h1 : i - j < W) (h2 : j - i < W) :
    (i % W).toNat ≠ (j % W).toNat := by
  intro h
  have hi : 0 ≤ i % W := Int.emod_nonneg i (by omega)
  have hj : 0 ≤ j % W := Int.emod_nonneg j (by omega)
  have h3 : i % W = j % W := by omega
  have h4 : (i - j) % W = 0 := Int.emod_eq_emod_iff_emod_sub_eq_zero.mp h3
  have h5 : W ∣ i - j := Int.dvd_of_emod_eq_zero h4
  have h6 : i - j = 0 := Int.eq_zero_of_abs_lt_dvd h5 (by rw [abs_lt]; omega)
  omega

theorem elemUpdate_ok {W : Int} {w : StatsWindow} (h : Ok W w) {i : Int} (hi : 0 ≤ i)
    (f : Nat → Nat) :
    elemUpdate w i f = some { w with
      elements_ := w.elements_.set (i % W).toNat (f (w.elements_.getD (i % W).toNat 0)) } := by
  unfold elemUpdate
  rw [h.size, h.len, ringPos_nonneg h.pos hi]

theorem elemAt_ok {W : Int} {w : StatsWindow} (h : Ok W w) {i : Int} (hi : 0 ≤ i) :
    elemAt w i = w.elements_[(i % W).toNat]? := by
  unfold elemAt
  rw [h.size, h.len, ringPos_nonneg h.pos hi]

/-- What the zeroing loop of `insert` does to a usable window. -/
theorem insertAdvance_spec {W : Int} (cur : Int) :
    ∀ (n : Nat) (w : StatsWindow), Ok W w → cur - w.maxRingIdx_ ≤ n →
      ∃ w', insertAdvance cur n w = some w' ∧ Ok W w' ∧
        w'.maxRingIdx_ = max w.maxRingIdx_ cur ∧
        (∀ j, w.maxRingIdx_ < j → j ≤ cur → w'.elements_[(j % W).toNat]? = some 0) ∧
        (∀ k, (∀ j, w.maxRingIdx_ < j → j ≤ cur → (j % W).toNat ≠ k) →
          w'.elements_[k]? = w.elements_[k]?) := by
  intro n
  induction n with
  | zero =>
    intro w hw hn
    refine ⟨w, rfl, hw, ?_, ?_, ?_⟩
    · have : cur ≤ w.maxRingIdx_ := by omega
      omega
    · intro j h1 h2; omega
    · intro k _; rfl
  | succ n ih =>
    intro w hw hn
    by_cases hlt : w.maxRingIdx_ < cur
    · have htop := hw.top
      have hstep := elemUpdate_ok (w := { w with maxRingIdx_ := w.maxRingIdx_ + 1 })
        (W := W) ⟨hw.pos, hw.size, hw.len, by simp; omega⟩
        (i := w.maxRingIdx_ + 1) (by omega) (fun _ => 0)
      obtain ⟨w', hrun, hok, hmax, hz, hk⟩ := ih
        { w with maxRingIdx_ := w.maxRingIdx_ + 1,
                 elements_ := w.elements_.set ((w.maxRingIdx_ + 1) % W).toNat 0 }
        ⟨hw.pos, hw.size, by simp [hw.len], by simp; omega⟩
        (by simp; omega)
      refine ⟨w', ?_, hok, ?_, ?_, ?_⟩
      · simp only [insertAdvance, hlt, if_true, hstep]
        exact hrun
      · simp at hmax; omega
      · intro j h1 h2
        by_cases hj : w.maxRingIdx_ + 1 < j
        · exact hz j (by simpa using hj) h2
        · have hje : j = w.maxRingIdx_ + 1 := by omega
          subst hje
          by_cases hex : ∃ j', w.maxRingIdx_ + 1 < j' ∧ j' ≤ cur ∧
              (j' % W).toNat = ((w.maxRingIdx_ + 1) % W).toNat
          · obtain ⟨j', a, b, c⟩ := hex
            rw [← c]
            exact hz j' (by simpa using a) b
          · rw [hk]
            · simp only [List.getElem?_set]
              have := pos_lt (W := W) (i := w.maxRingIdx_ + 1) hw.pos
              simp [hw.len, this]
            · intro j' a b c
              exact hex ⟨j', by simpa using a, b, c⟩
      · intro k hkk
        rw [hk k (fun j a b => hkk j (by simp at a; omega) b)]
        simp only [List.getElem?_set]
        have := hkk (w.maxRingIdx_ + 1) (by omega) (by omega)
        simp [this]
    · refine ⟨w, ?_, hw, ?_, ?_, ?_⟩
      · simp [insertAdvance, hlt]
      · omega
      · intro j h1 h2; omega
      · intro k _; rfl

end StatsWindow

/-! ## The loop counts are enough, and the class invariant is kept -/

namespace StatsWindow

theorem elemUpdate_fields {w w' : StatsWindow} {i : Int} {f : Nat → Nat}
    (h : elemUpdate w i f = some w') :
    w'.maxRingIdx_ = w.maxRingIdx_ ∧ w'.windowSize_ = w.windowSize_ ∧
      w'.elements_.length = w.elements_.length := by
  unfold elemUpdate at h
  split at h
  · simp only [Option.some.injEq] at h
    subst h
    simp
  · simp at h

/-- The count that `insert` passes to its loop is enough: a larger one gives the same result. -/
theorem insertAdvance_fuel (cur : Int) :
    ∀ (n : Nat) (w : StatsWindow), (cur - w.maxRingIdx_).toNat ≤ n →
      insertAdvance cur n w = insertAdvance cur (cur - w.maxRingIdx_).toNat w := by
  intro n
  induction n with
  | zero =>
    intro w h
    have : (cur - w.maxRingIdx_).toNat = 0 := by omega
    rw [this]
  | succ n ih =>
    intro w h
    by_cases hlt : w.maxRingIdx_ < cur
    · obtain ⟨k, hk⟩ : ∃ k, (cur - w.maxRingIdx_).toNat = k + 1 :=
        ⟨(cur - w.maxRingIdx_).toNat - 1, by omega⟩
      rw [hk]
      simp only [insertAdvance, hlt, if_true]
      cases hu : elemUpdate { w with maxRingIdx_ := w.maxRingIdx_ + 1 } (w.maxRingIdx_ + 1)
          (fun _ => 0) with
      | none => rfl
      | some w1 =>
        have hm : w1.maxRingIdx_ = w.maxRingIdx_ + 1 := (elemUpdate_fields hu).1
        have hk' : (cur - w1.maxRingIdx_).toNat = k := by omega
        simp only
        rw [ih w1 (by omega), hk']
    · have : (cur - w.maxRingIdx_).toNat = 0 := by omega
      rw [this]
      simp [insertAdvance, hlt]

/-- The count that `sum` passes to its loop is enough: a larger one gives the same result. -/
theorem sumLoop_fuel (w : StatsWindow) (e : Int) :
    ∀ (n : Nat) (b : Int) (acc : Nat), (b - e).toNat ≤ n →
      sumLoop w e n b acc = sumLoop w e (b - e).toNat b acc := by
  intro n
  induction n with
  | zero =>
    intro b acc h
    have : (b - e).toNat = 0 := by omega
    rw [this]
  | succ n ih =>
    intro b acc h
    by_cases hgt : b > e
    · obtain ⟨k, hk⟩ : ∃ k, (b - e).toNat = k + 1 := ⟨(b - e).toNat - 1, by omega⟩
      rw [hk]
      simp only [sumLoop, hgt, if_true]
      cases elemAt w b with
      | none => rfl
      | some x =>
        have hk' : (b - 1 - e).toNat = k := by omega
        simp only
        rw [ih (b - 1) _ (by omega), hk']
    · have : (b - e).toNat = 0 := by omega
      rw [this]
      simp [sumLoop, hgt]

theorem insertAdvance_WF (cur : Int) :
    ∀ (n : Nat) (w w' : StatsWindow), WF w → insertAdvance cur n w = some w' → WF w' := by
  intro n
  induction n with
  | zero =>
    intro w w' hw h
    simp only [insertAdvance, Option.some.injEq] at h
    exact h ▸ hw
  | succ n ih =>
    intro w w' hw h
    simp only [insertAdvance] at h
    split at h
    · split at h
      · rename_i w1 hu
        have hf := elemUpdate_fields hu
        exact ih w1 w' ⟨by rw [hf.2.1]; exact hw.1, by rw [hf.2.2, hf.2.1]; exact hw.2⟩ h
      · simp at h
    · simp only [Option.some.injEq] at h
      exact h ▸ hw

/-- Every `insert` that returns keeps the class invariant. -/
theorem insert_WF (w : StatsWindow) (idx : Int) (val : Nat) (b : Bool) (w' : StatsWindow)
    (hw : WF w) (h : insert w idx val = some (b, w')) : WF w' := by
  by_cases hs : w.maxRingIdx_ > idx + w.windowSize_
  · simp only [insert, hs, if_true, Option.some.injEq, Prod.mk.injEq] at h
    exact h.2 ▸ hw
  · have hw1 : WF (if w.maxRingIdx_ = -1 ∨ idx - w.maxRingIdx_ > w.windowSize_ then
        { clear w with maxRingIdx_ := idx } else w) := by
      split
      · exact ⟨hw.1, by simp [clear]⟩
      · exact hw
    simp only [insert, hs, if_false] at h
    generalize (if w.maxRingIdx_ = -1 ∨ idx - w.maxRingIdx_ > w.windowSize_ then
        { clear w with maxRingIdx_ := idx } else w) = w1 at h hw1
    cases hadv : insertAdvance idx (idx - w1.maxRingIdx_).toNat w1 with
    | none => rw [hadv] at h; simp at h
    | some w2 =>
      rw [hadv] at h
      simp only at h
      have hw2 := insertAdvance_WF idx _ _ w2 hw1 hadv
      cases hu : elemUpdate w2 idx (fun x => addU64 x val) with
      | none => rw [hu] at h; simp at h
      | some w3 =>
        rw [hu] at h
        simp only [Option.some.injEq, Prod.mk.injEq] at h
        have hf := elemUpdate_fields hu
        rw [← h.2]
        exact ⟨by rw [hf.2.1]; exact hw2.1, by rw [hf.2.2, hf.2.1]; exact hw2.2⟩

end StatsWindow

/-! ## The three paths of `insert` -/

namespace StatsWindow

/-- The stale path: the call returns `false` and leaves the window as it was. -/
theorem insert_stale (w : StatsWindow) (idx : Int) (val : Nat)
    (h : idx + w.windowSize_ < w.maxRingIdx_) : insert w idx val = some (false, w) := by
  unfold insert
  simp [h]

/-- The reset path: the window is cleared and restarted at `idx`. -/
theorem insert_reset (w : StatsWindow) (idx : Int) (val : Nat) (hW : 0 < w.windowSize_)
    (hi : 0 ≤ idx) (hs : ¬ idx + w.windowSize_ < w.maxRingIdx_)
    (hr : w.maxRingIdx_ = -1 ∨ idx - w.maxRingIdx_ > w.windowSize_) :
    insert w idx val = some (true,
      { maxRingIdx_ := idx, windowSize_ := w.windowSize_,
        elements_ := (List.replicate w.windowSize_.toNat 0).set (idx % w.windowSize_).toNat
          (addU64 0 val) }) := by
  have hok : Ok w.windowSize_ { clear w with maxRingIdx_ := idx } :=
    ⟨hW, rfl, by simp [clear], by simp; omega⟩
  have hup := elemUpdate_ok hok hi (fun x => addU64 x val)
  unfold insert
  simp only [gt_iff_lt, hs, if_false, hr, if_true, sub_self, Int.toNat_zero, insertAdvance, hup]
  simp [clear]

/-- The live path: the loop advances a usable window to `idx` and the cell of `idx` grows by
`val`. -/
theorem insert_live {W : Int} {w : StatsWindow} (hw : Ok W w) (idx : Int) (val : Nat)
    (hi : 0 ≤ idx) (hs : ¬ idx + W < w.maxRingIdx_)
    (hr : ¬ (w.maxRingIdx_ = -1 ∨ idx - w.maxRingIdx_ > W)) :
    ∃ w2, Ok W w2 ∧ w2.maxRingIdx_ = max w.maxRingIdx_ idx ∧
      (∀ j, w.maxRingIdx_ < j → j ≤ idx → w2.elements_[(j % W).toNat]? = some 0) ∧
      (∀ k, (∀ j, w.maxRingIdx_ < j → j ≤ idx → (j % W).toNat ≠ k) →
        w2.elements_[k]? = w.elements_[k]?) ∧
      insert w idx val = some (true,
        { w2 with
          elements_ := w2.elements_.set (idx % W).toNat
            (addU64 (w2.elements_.getD (idx % W).toNat 0) val) }) := by
  obtain ⟨w2, hrun, hok2, hmax, hz, hk⟩ :=
    insertAdvance_spec (W := W) idx (idx - w.maxRingIdx_).toNat w hw (by omega)
  refine ⟨w2, hok2, hmax, hz, hk, ?_⟩
  have hup := elemUpdate_ok hok2 hi (fun x => addU64 x val)
  have hsz := hw.size
  unfold insert
  rw [hsz]
  simp only [gt_iff_lt, hs, if_false, hr, hrun, hup]

/-- On a usable window an insert at a ring index that is not negative always returns, the
flag says whether the index was stale, and the top index becomes the larger of the two. -/
theorem insert_ok {W : Int} {w : StatsWindow} (hw : Ok W w) (idx : Int) (val : Nat)
    (hi : 0 ≤ idx) :
    ∃ w', insert w idx val = some (decide (¬ idx + W < w.maxRingIdx_), w') ∧ Ok W w' ∧
      w'.maxRingIdx_ = max w.maxRingIdx_ idx := by
  have hpos := hw.pos
  by_cases hs : idx + W < w.maxRingIdx_
  · have hd : decide (¬ idx + W < w.maxRingIdx_) = false := by simp [hs]
    rw [hd, insert_stale w idx val (by rw [hw.size]; exact hs)]
    exact ⟨w, rfl, hw, by omega⟩
  · by_cases hr : w.maxRingIdx_ = -1 ∨ idx - w.maxRingIdx_ > W
    · have h := insert_reset w idx val (by rw [hw.size]; exact hpos) hi
        (by rw [hw.size]; exact hs) (by rw [hw.size]; exact hr)
      have hd : decide (¬ idx + W < w.maxRingIdx_) = true := by simp [hs]
      rw [hd, h]
      refine ⟨_, rfl, ?_, ?_⟩
      · exact ⟨hpos, hw.size, by simp [hw.size], by simp; omega⟩
      · simp; omega
    · obtain ⟨w2, hok2, hmax, _, _, hins⟩ := insert_live hw idx val hi hs hr
      have hd : decide (¬ idx + W < w.maxRingIdx_) = true := by simp [hs]
      rw [hd, hins]
      refine ⟨_, rfl, ?_, ?_⟩
      · exact ⟨hpos, hok2.size, by simp [hok2.len], hok2.top⟩
      · exact hmax

end StatsWindow

/-! ## The window against the log of its inserts -/

namespace StatsWindow

theorem valuesAt_append (log : List (Int × Nat)) (idx : Int) (val : Nat) (i : Int) :
    valuesAt (log ++ [(idx, val)]) i = valuesAt log i + (if idx = i then val else 0) := by
  unfold valuesAt
  by_cases h : idx = i <;> simp [List.filter_append, List.filter_cons, h]

theorem valuesAt_eq_zero (log : List (Int × Nat)) (i : Int) (h : ∀ p ∈ log, p.1 ≠ i) :
    valuesAt log i = 0 := by
  unfold valuesAt
  have : log.filter (fun p => decide (p.1 = i)) = [] := by
    rw [List.filter_eq_nil_iff]
    intro p hp
    simpa using h p hp
  rw [this]; rfl

theorem valuesIn_eq_zero (log : List (Int × Nat)) (lo hi : Int)
    (h : ∀ p ∈ log, ¬ (lo < p.1 ∧ p.1 ≤ hi)) : valuesIn log lo hi = 0 := by
  unfold valuesIn
  have : log.filter (fun p => decide (lo < p.1 ∧ p.1 ≤ hi)) = [] := by
    rw [List.filter_eq_nil_iff]
    intro p hp
    simpa using h p hp
  rw [this]; rfl

@[simp] theorem construct_maxRingIdx (W : Int) : (construct W).maxRingIdx_ = -1 := rfl

@[simp] theorem construct_windowSize (W : Int) : (construct W).windowSize_ = W := rfl

theorem valuesIn_nil (lo hi : Int) : valuesIn [] lo hi = 0 := rfl

theorem valuesAt_cons (p : Int × Nat) (rest : List (Int × Nat)) (i : Int) :
    valuesAt (p :: rest) i = (if p.1 = i then p.2 else 0) + valuesAt rest i := by
  unfold valuesAt
  by_cases h : p.1 = i <;> simp [List.filter_cons, h]

theorem valuesIn_cons (p : Int × Nat) (rest : List (Int × Nat)) (lo hi : Int) :
    valuesIn (p :: rest) lo hi
      = (if lo < p.1 ∧ p.1 ≤ hi then p.2 else 0) + valuesIn rest lo hi := by
  unfold valuesIn
  by_cases h : lo < p.1 ∧ p.1 ≤ hi
  · simp [List.filter_cons, h]
  · simp only [List.filter_cons, h, decide_False, if_false]
    simp

/-- Peeling the top index off a range. -/
theorem valuesIn_succ (log : List (Int × Nat)) (lo hi : Int) (h : lo < hi) :
    valuesIn log lo hi = valuesIn log lo (hi - 1) + valuesAt log hi := by
  induction log with
  | nil => simp [valuesIn, valuesAt]
  | cons p rest ih =>
    rw [valuesIn_cons, valuesIn_cons, valuesAt_cons, ih]
    split_ifs <;> omega

/-- Two ranges that hold the same logged indices have the same total. -/
theorem valuesIn_congr (log : List (Int × Nat)) (lo hi hi' : Int)
    (h : ∀ p ∈ log, (lo < p.1 ∧ p.1 ≤ hi) ↔ (lo < p.1 ∧ p.1 ≤ hi')) :
    valuesIn log lo hi = valuesIn log lo hi' := by
  unfold valuesIn
  congr 2
  apply List.filter_congr
  intro p hp
  simp only [decide_eq_decide]
  exact h p hp

theorem valuesAbove_eq_valuesIn (log : List (Int × Nat)) (lo hi : Int)
    (h : ∀ p ∈ log, p.1 ≤ hi) : valuesAbove log lo = valuesIn log lo hi := by
  unfold valuesAbove valuesIn
  congr 2
  apply List.filter_congr
  intro p hp
  have := h p hp
  simp only [decide_eq_decide]
  constructor
  · intro a; exact ⟨a, this⟩
  · intro a; exact a.1

theorem tracks_construct {W : Int} (hW : 0 < W) : Tracks W (construct W) [] where
  ok := ⟨hW, rfl, by simp [construct], by simp [construct]⟩
  seen := by intro p hp; simp at hp
  cells := by
    intro i h0 _ h2
    simp only [construct] at h2
    omega

end StatsWindow

namespace StatsWindow

theorem mod_add_mod (a b : Nat) : (a % u64Mod + b) % u64Mod = (a + b) % u64Mod := by
  rw [Nat.add_mod, Nat.mod_mod, ← Nat.add_mod]

/-- One insert off the boundary keeps the window in step with the log. -/
theorem tracks_insert {W : Int} {w : StatsWindow} {log : List (Int × Nat)}
    (ht : Tracks W w log) (idx : Int) (val : Nat) (hi : 0 ≤ idx)
    (hb : idx ≠ w.maxRingIdx_ - W) :
    ∃ w', insert w idx val = some (decide (¬ idx + W < w.maxRingIdx_), w') ∧
      Tracks W w' (log ++ [(idx, val)]) ∧ w'.maxRingIdx_ = max w.maxRingIdx_ idx := by
  have hw := ht.ok
  have hpos := hw.pos
  have htop := hw.top
  by_cases hs : idx + W < w.maxRingIdx_
  · -- stale: dropped
    have hd : decide (¬ idx + W < w.maxRingIdx_) = false := by simp [hs]
    rw [hd, insert_stale w idx val (by rw [hw.size]; exact hs)]
    refine ⟨w, rfl, ⟨hw, ?_, ?_⟩, by omega⟩
    · intro p hp
      rcases List.mem_append.mp hp with h | h
      · exact ht.seen p h
      · simp at h; subst h; simp; omega
    · intro i h0 h1 h2
      rw [valuesAt_append, if_neg (by omega), Nat.add_zero]
      exact ht.cells i h0 h1 h2
  · have hd : decide (¬ idx + W < w.maxRingIdx_) = true := by simp [hs]
    rw [hd]
    by_cases hr : w.maxRingIdx_ = -1 ∨ idx - w.maxRingIdx_ > W
    · -- reset: every logged index is now out of the window
      have h := insert_reset w idx val (by rw [hw.size]; exact hpos) hi
        (by rw [hw.size]; exact hs) (by rw [hw.size]; exact hr)
      rw [h, hw.size]
      have hold : ∀ p ∈ log, p.1 ≤ idx - W ∨ p.1 ≤ -1 := by
        intro p hp
        have := ht.seen p hp
        omega
      refine ⟨_, rfl, ⟨⟨hpos, rfl, by simp, by simp; omega⟩, ?_, ?_⟩, by simp; omega⟩
      · intro p hp
        rcases List.mem_append.mp hp with h | h
        · have := hold p h
          simp only; omega
        · simp at h; subst h; simp
      · intro i h0 h1 h2
        simp only at h1 h2
        have hz : valuesAt log i = 0 := by
          apply valuesAt_eq_zero
          intro p hp
          have := hold p hp
          omega
        rw [valuesAt_append, hz]
        simp only [List.getElem?_set, List.length_replicate]
        by_cases hii : i = idx
        · subst hii
          have := pos_lt (W := W) (i := i) hpos
          simp [this, addU64]
        · have hne := pos_ne (W := W) hpos hii (by omega) (by omega)
          have := pos_lt (W := W) (i := i) hpos
          simp [Ne.symm hne, Ne.symm hii, this, List.getElem?_replicate]
    · -- live: the loop advances, then the cell of idx grows
      obtain ⟨w2, hok2, hmax, hz, hk, hins⟩ := insert_live hw idx val hi hs hr
      rw [hins]
      have hcell : ∀ i, 0 ≤ i → max w.maxRingIdx_ idx - W < i →
          i ≤ max w.maxRingIdx_ idx →
          w2.elements_[(i % W).toNat]? = some (valuesAt log i % u64Mod) := by
        intro i h0 h1 h2
        by_cases hgt : w.maxRingIdx_ < i
        · rw [hz i hgt (by omega), valuesAt_eq_zero]
          · rfl
          · intro p hp
            have := ht.seen p hp
            omega
        · rw [hk]
          · exact ht.cells i h0 (by omega) (by omega)
          · intro j a b
            exact pos_ne hpos (by omega) (by omega) (by omega)
      refine ⟨_, rfl, ⟨⟨hpos, hok2.size, by simp [hok2.len], hok2.top⟩, ?_, ?_⟩, hmax⟩
      · intro p hp
        simp only [hmax]
        rcases List.mem_append.mp hp with h | h
        · have := ht.seen p h
          omega
        · simp at h; subst h; simp
      · intro i h0 h1 h2
        simp only [hmax] at h1 h2
        rw [valuesAt_append]
        simp only [List.getElem?_set, List.getD_eq_getElem?_getD]
        by_cases hii : i = idx
        · subst hii
          have := pos_lt (W := W) (i := i) hpos
          rw [hcell i h0 h1 h2]
          simp [hok2.len, this, addU64, mod_add_mod]
        · have hne := pos_ne (W := W) hpos hii (by omega) (by omega)
          simp only [Ne.symm hne, if_false, Ne.symm hii, Nat.add_zero]
          exact hcell i h0 h1 h2

end StatsWindow

namespace StatsWindow

/-- A run of inserts at ring indices that are not negative, none on the boundary, returns and
leaves the window in step with the log. -/
theorem tracks_insertAll {W : Int} :
    ∀ (rest : List (Int × Nat)) (w : StatsWindow) (done : List (Int × Nat)),
      Tracks W w done → (∀ p ∈ rest, 0 ≤ p.1) → offBoundary w rest = true →
      ∃ w', insertAll w rest = some w' ∧ Tracks W w' (done ++ rest) ∧
        w'.maxRingIdx_ = rest.foldl (fun m p => max m p.1) w.maxRingIdx_ := by
  intro rest
  induction rest with
  | nil =>
    intro w done ht _ _
    exact ⟨w, rfl, by simpa using ht, rfl⟩
  | cons p rest ih =>
    intro w done ht hnn hoff
    simp only [offBoundary, Bool.and_eq_true, decide_eq_true_eq] at hoff
    obtain ⟨w1, hins, ht1, hm1⟩ := tracks_insert ht p.1 p.2 (hnn p (by simp))
      (by rw [← ht.ok.size]; exact hoff.1)
    have hoff2 := hoff.2
    rw [hins] at hoff2
    obtain ⟨w', hrun, ht', hm'⟩ := ih w1 (done ++ [(p.1, p.2)]) ht1
      (fun q hq => hnn q (by simp [hq])) hoff2
    refine ⟨w', ?_, by simpa using ht', ?_⟩
    · simp only [insertAll, hins]
      exact hrun
    · rw [hm', hm1]; rfl

/-- The summing loop over live ring indices that are not negative adds up the log. -/
theorem sumLoop_tracks {W : Int} {w : StatsWindow} {log : List (Int × Nat)}
    (ht : Tracks W w log) (e : Int) (he : -1 ≤ e) (hlive : w.maxRingIdx_ - W ≤ e) :
    ∀ (n : Nat) (b : Int) (acc : Nat), b - e ≤ n → b ≤ w.maxRingIdx_ → acc < u64Mod →
      sumLoop w e n b acc = some ((acc + valuesIn log e b) % u64Mod) := by
  intro n
  induction n with
  | zero =>
    intro b acc hn _ hacc
    have hz : valuesIn log e b = 0 := valuesIn_eq_zero log e b (by intro p _; omega)
    simp [sumLoop, hz, Nat.mod_eq_of_lt hacc]
  | succ n ih =>
    intro b acc hn hb hacc
    by_cases hgt : b > e
    · have hread : elemAt w b = some (valuesAt log b % u64Mod) := by
        rw [elemAt_ok ht.ok (by omega)]
        exact ht.cells b (by omega) (by omega) hb
      have hacc2 : addU64 acc (valuesAt log b % u64Mod) < u64Mod :=
        Nat.mod_lt _ (by unfold u64Mod; positivity)
      simp only [sumLoop, hgt, if_true, hread]
      rw [ih (b - 1) _ (by omega) (by omega) hacc2, valuesIn_succ log e b hgt]
      congr 1
      unfold addU64
      rw [mod_add_mod, Nat.add_comm acc, Nat.add_assoc, mod_add_mod]
      congr 1
      omega
    · have hz : valuesIn log e b = 0 := valuesIn_eq_zero log e b (by intro p _; omega)
      simp [sumLoop, hgt, hz, Nat.mod_eq_of_lt hacc]

/-- Inside the live window `sum` returns the reference total of the queried range. -/
theorem sum_tracks {W : Int} {w : StatsWindow} {log : List (Int × Nat)}
    (ht : Tracks W w log) (b len : Int) (hL : 0 < min len W)
    (hlo : max (w.maxRingIdx_ - W) (-1) ≤ b - min len W) :
    sum w b len = some (valuesIn log (b - min len W) b % u64Mod) := by
  have hsz := ht.ok.size
  unfold sum
  rw [hsz]
  by_cases hfut : b - min len W ≥ w.maxRingIdx_
  · have hz : valuesIn log (b - min len W) b = 0 := by
      apply valuesIn_eq_zero
      intro p hp
      have := ht.seen p hp
      omega
    simp [hfut, hz]
  · have hc : ¬ (min len W ≤ 0 ∨ b - min len W ≥ w.maxRingIdx_) := by omega
    rw [if_neg hc]
    have hu : (0 : Nat) < u64Mod := by unfold u64Mod; positivity
    rw [sumLoop_tracks ht (b - min len W) (by omega) (by omega) _ _ 0
      (by split_ifs <;> omega) (by split_ifs <;> omega) hu, Nat.zero_add]
    congr 2
    apply valuesIn_congr
    intro p hp
    have := ht.seen p hp
    split_ifs <;> omega

end StatsWindow

namespace StatsWindow

/-- A call that is not stale never returns `false`. -/
theorem insert_flag_of_not_stale (w : StatsWindow) (idx : Int) (val : Nat)
    (hs : ¬ idx + w.windowSize_ < w.maxRingIdx_) (b : Bool) (w' : StatsWindow)
    (h : insert w idx val = some (b, w')) : b = true := by
  unfold insert at h
  simp only [gt_iff_lt, hs, if_false] at h
  split at h
  · simp at h
  · split at h
    · simp at h
    · simp only [Option.some.injEq, Prod.mk.injEq] at h
      exact h.1.symm

theorem foldl_max_ge (l : List (Int × Nat)) :
    ∀ m : Int, m ≤ l.foldl (fun m p => max m p.1) m := by
  induction l with
  | nil => intro m; exact le_refl m
  | cons p rest ih =>
    intro m
    exact le_trans (le_max_left m p.1) (ih (max m p.1))

theorem insertAll_append (s1 s2 : List (Int × Nat)) :
    ∀ w : StatsWindow,
      insertAll w (s1 ++ s2) = (insertAll w s1).bind (fun w1 => insertAll w1 s2) := by
  induction s1 with
  | nil => intro w; rfl
  | cons p rest ih =>
    intro w
    simp only [List.cons_append, insertAll]
    cases insert w p.1 p.2 with
    | none => rfl
    | some r => exact ih r.2

/-- A run of inserts at ring indices that are not negative returns on a usable window, and the
top index ends as the largest of its start and the indices of the run. -/
theorem insertAll_ok {W : Int} :
    ∀ (rest : List (Int × Nat)) (w : StatsWindow), Ok W w → (∀ p ∈ rest, 0 ≤ p.1) →
      ∃ w', insertAll w rest = some w' ∧ Ok W w' ∧
        w'.maxRingIdx_ = rest.foldl (fun m p => max m p.1) w.maxRingIdx_ := by
  intro rest
  induction rest with
  | nil => intro w hw _; exact ⟨w, rfl, hw, rfl⟩
  | cons p rest ih =>
    intro w hw hnn
    obtain ⟨w1, hins, hok1, hm1⟩ := insert_ok hw p.1 p.2 (hnn p (by simp))
    obtain ⟨w', hrun, hok', hm'⟩ := ih w1 hok1 (fun q hq => hnn q (by simp [hq]))
    refine ⟨w', ?_, hok', ?_⟩
    · simp only [insertAll, hins]
      exact hrun
    · rw [hm', hm1]; rfl

end StatsWindow

/-! ## `insert` with `int64_t` arithmetic against `insert` with exact arithmetic -/

namespace StatsWindow

theorem wrapI64_of_range {x : Int} (h1 : -9223372036854775808 ≤ x) (h2 : x ≤ INT64_MAX) :
    wrapI64 x = x := by
  unfold wrapI64
  unfold INT64_MAX at h2
  omega

/-- The stale path of the `int64_t` insert. -/
theorem machine_insert_stale (w : StatsWindow) (idx : Int) (val : Nat)
    (h : w.maxRingIdx_ > wrapI64 (idx + w.windowSize_)) :
    Machine.insert w idx val = some (false, w) := by
  unfold Machine.insert
  simp [h]

/-- A call of the `int64_t` insert whose stale test fails never returns `false`. -/
theorem machine_insert_flag (w : StatsWindow) (idx : Int) (val : Nat)
    (hs : ¬ w.maxRingIdx_ > wrapI64 (idx + w.windowSize_)) (b : Bool) (w' : StatsWindow)
    (h : Machine.insert w idx val = some (b, w')) : b = true := by
  unfold Machine.insert at h
  simp only [hs, if_false] at h
  split at h
  · simp at h
  · split at h
    · simp at h
    · simp only [Option.some.injEq, Prod.mk.injEq] at h
      exact h.1.symm

/-- Where neither test overflows the two inserts are the same function: a positive size, a ring
index that is not negative with `idx + windowSize_ ≤ INT64_MAX`, and a top index of at least
`-1`. -/
theorem machine_insert_eq (w : StatsWindow) (idx : Int) (val : Nat) (hW : 0 < w.windowSize_)
    (hi : 0 ≤ idx) (hb : idx + w.windowSize_ ≤ INT64_MAX) (htop : -1 ≤ w.maxRingIdx_) :
    Machine.insert w idx val = insert w idx val := by
  have h1 : wrapI64 (idx + w.windowSize_) = idx + w.windowSize_ :=
    wrapI64_of_range (by omega) hb
  unfold Machine.insert insert
  rw [h1]
  by_cases hs : w.maxRingIdx_ > idx + w.windowSize_
  · simp only [hs, if_true]
  · have h2 : wrapI64 (idx - w.maxRingIdx_) = idx - w.maxRingIdx_ := by
      unfold INT64_MAX at hb
      exact wrapI64_of_range (by omega) (by unfold INT64_MAX; omega)
    simp only [hs, if_false, h2]

/-- On a usable window, a run of inserts at ring indices that are not negative and do not
overflow is the same run for both inserts. -/
theorem machine_insertAll_eq {W : Int} :
    ∀ (seq : List (Int × Nat)) (w : StatsWindow), Ok W w →
      (∀ p ∈ seq, 0 ≤ p.1 ∧ p.1 + W ≤ INT64_MAX) →
      Machine.insertAll w seq = insertAll w seq ∧
      Machine.offBoundary w seq = offBoundary w seq := by
  intro seq
  induction seq with
  | nil => intro w _ _; exact ⟨rfl, rfl⟩
  | cons p rest ih =>
    intro w hw hb
    have hp := hb p (by simp)
    have he := machine_insert_eq w p.1 p.2 (by rw [hw.size]; exact hw.pos) hp.1
      (by rw [hw.size]; exact hp.2) hw.top
    obtain ⟨w1, hins, hok1, _⟩ := insert_ok hw p.1 p.2 hp.1
    have hrest := ih w1 hok1 (fun q hq => hb q (by simp [hq]))
    constructor
    · simp only [Machine.insertAll, insertAll, he, hins]
      exact hrest.1
    · simp only [Machine.offBoundary, offBoundary, he, hins]
      rw [hrest.2]

end StatsWindow

/-! ## Two inserts at one ring index -/

namespace StatsWindow

/-- A subscript that `ringPos` grants is the truncated remainder and lies inside the vector. -/
theorem ringPos_some {i W : Int} {size k : Nat} (h : ringPos i W size = some k) :
    W ≠ 0 ∧ 0 ≤ Int.tmod i W ∧ k = (Int.tmod i W).toNat ∧ k < size := by
  unfold ringPos at h
  split at h
  · simp at h
  · split at h
    · simp only [Option.some.injEq] at h
      rename_i h0 h1
      exact ⟨h0, h1.1, h.symm, h ▸ h1.2⟩
    · simp at h

/-- The top index and the size after the loop of `insert`, in any window. -/
theorem insertAdvance_fields (cur : Int) :
    ∀ (n : Nat) (w w2 : StatsWindow), cur - w.maxRingIdx_ ≤ n →
      insertAdvance cur n w = some w2 →
      w2.maxRingIdx_ = max w.maxRingIdx_ cur ∧ w2.windowSize_ = w.windowSize_ := by
  intro n
  induction n with
  | zero =>
    intro w w2 hn h
    simp only [insertAdvance, Option.some.injEq] at h
    subst h
    exact ⟨by have : cur ≤ w.maxRingIdx_ := by omega
              omega, rfl⟩
  | succ n ih =>
    intro w w2 hn h
    simp only [insertAdvance] at h
    split at h
    · split at h
      · rename_i hlt w1 hu
        have hf := elemUpdate_fields hu
        simp only at hf
        have := ih w1 w2 (by omega) h
        exact ⟨by omega, by rw [this.2, hf.2.1]⟩
      · simp at h
    · rename_i hge
      simp only [Option.some.injEq] at h
      subst h
      exact ⟨by omega, rfl⟩

/-- In a window whose top index is not negative and lies in `[i, i + windowSize]`, `insert` at
`i` goes straight to the cell. -/
theorem insert_at_covered (w : StatsWindow) (i : Int) (val : Nat)
    (hi : 0 ≤ i) (h1 : i ≤ w.maxRingIdx_) (h2 : w.maxRingIdx_ ≤ i + w.windowSize_) :
    insert w i val =
      match elemUpdate w i (fun x => addU64 x val) with
      | none => none
      | some w3 => some (true, w3) := by
  have hs : ¬ (w.maxRingIdx_ > i + w.windowSize_) := by omega
  have hr : ¬ (w.maxRingIdx_ = -1 ∨ i - w.maxRingIdx_ > w.windowSize_) := by omega
  have hz : (i - w.maxRingIdx_).toNat = 0 := by omega
  unfold insert
  simp only [hs, if_false, hr, hz, insertAdvance]

/-- The state that the first part of an accepted `insert` reaches, before the cell of the
index grows: the window after the reset, if any, and the loop. It does not depend on the
value. -/
theorem insert_split (w : StatsWindow) (i : Int) (hW : 0 < w.windowSize_)
    (hs : ¬ i + w.windowSize_ < w.maxRingIdx_) :
    (∀ v, insert w i v = none) ∨
    ∃ (w2 : StatsWindow) (k : Nat), w2.windowSize_ = w.windowSize_ ∧ i ≤ w2.maxRingIdx_ ∧
      w2.maxRingIdx_ ≤ i + w.windowSize_ ∧
      ringPos i w2.windowSize_ w2.elements_.length = some k ∧
      ∀ v, insert w i v = some (true,
        { w2 with elements_ := w2.elements_.set k (addU64 (w2.elements_.getD k 0) v) }) := by
  have hs' : ¬ (w.maxRingIdx_ > i + w.windowSize_) := by omega
  have hform : ∀ v, insert w i v =
      match insertAdvance i
        (i - (if w.maxRingIdx_ = -1 ∨ i - w.maxRingIdx_ > w.windowSize_ then
          { clear w with maxRingIdx_ := i } else w).maxRingIdx_).toNat
        (if w.maxRingIdx_ = -1 ∨ i - w.maxRingIdx_ > w.windowSize_ then
          { clear w with maxRingIdx_ := i } else w) with
      | none => none
      | some w2 =>
        match elemUpdate w2 i (fun x => addU64 x v) with
        | none => none
        | some w3 => some (true, w3) := by
    intro v
    unfold insert
    simp only [hs', if_false]
  have hw1 : (if w.maxRingIdx_ = -1 ∨ i - w.maxRingIdx_ > w.windowSize_ then
      { clear w with maxRingIdx_ := i } else w).windowSize_ = w.windowSize_ := by
    split <;> rfl
  have hm1 : (if w.maxRingIdx_ = -1 ∨ i - w.maxRingIdx_ > w.windowSize_ then
      { clear w with maxRingIdx_ := i } else w).maxRingIdx_ ≤ i + w.windowSize_ := by
    split
    · simp only; omega
    · omega
  generalize (if w.maxRingIdx_ = -1 ∨ i - w.maxRingIdx_ > w.windowSize_ then
      { clear w with maxRingIdx_ := i } else w) = w1 at hform hw1 hm1
  cases hadv : insertAdvance i (i - w1.maxRingIdx_).toNat w1 with
  | none =>
    left
    intro v
    rw [hform, hadv]
  | some w2 =>
    have hf := insertAdvance_fields i _ w1 w2 (by omega) hadv
    cases hpos : ringPos i w2.windowSize_ w2.elements_.length with
    | none =>
      left
      intro v
      rw [hform, hadv]
      simp only [elemUpdate, hpos]
    | some k =>
      right
      refine ⟨w2, k, by rw [hf.2, hw1], by omega, by omega, hpos, ?_⟩
      intro v
      rw [hform, hadv]
      simp only [elemUpdate, hpos]

theorem addU64_swap (x a b : Nat) : addU64 (addU64 x a) b = addU64 (addU64 x b) a := by
  unfold addU64
  rw [mod_add_mod, mod_add_mod]
  congr 1
  omega

/-- Two inserts in a row at one ring index, when the first is accepted and returns: both return
`true` and the cell has grown by both values. -/
theorem insertTwice_accepted (w w2 : StatsWindow) (i : Int) (k : Nat)
    (hi : 0 ≤ i) (h1 : i ≤ w2.maxRingIdx_)
    (h2 : w2.maxRingIdx_ ≤ i + w2.windowSize_)
    (hpos : ringPos i w2.windowSize_ w2.elements_.length = some k)
    (hins : ∀ v, insert w i v = some (true,
      { w2 with elements_ := w2.elements_.set k (addU64 (w2.elements_.getD k 0) v) }))
    (a b : Nat) :
    insertTwice w i a b = some ((true, true),
      { w2 with
        elements_ := w2.elements_.set k (addU64 (addU64 (w2.elements_.getD k 0) a) b) }) := by
  have hk := (ringPos_some hpos).2.2.2
  unfold insertTwice
  rw [hins a]
  simp only
  rw [insert_at_covered
    { w2 with elements_ := w2.elements_.set k (addU64 (w2.elements_.getD k 0) a) } i b hi h1 h2]
  simp only [elemUpdate, List.length_set, hpos, List.set_set]
  simp [List.getD_eq_getElem?_getD, List.getElem?_set, hk]

end StatsWindow

/-! ## `sum` as a total of cells, in any window that keeps the class invariant -/

namespace StatsWindow

/-- In a window with the class invariant and a positive size, the cell of a ring index that is
not negative is inside the vector. -/
theorem elemAt_wf (w : StatsWindow) (hW : 0 < w.windowSize_) (hwf : WF w) {i : Int}
    (hi : 0 ≤ i) :
    elemAt w i = some (w.elements_.getD (i % w.windowSize_).toNat 0) := by
  have hp := pos_lt (W := w.windowSize_) (i := i) hW
  unfold elemAt
  rw [hwf.2, ringPos_nonneg hW hi]
  simp only
  rw [List.getD_eq_getElem?_getD, List.getElem?_eq_getElem (by rw [hwf.2]; exact hp)]
  rfl

/-- The summing loop over ring indices that are not negative returns the total of their
cells. -/
theorem sumLoop_cells (w : StatsWindow) (hW : 0 < w.windowSize_) (hwf : WF w) (e : Int)
    (he : -1 ≤ e) :
    ∀ (n : Nat) (b : Int) (acc : Nat), b - e = n → acc < u64Mod →
      sumLoop w e n b acc = some ((acc + cellsDown w.elements_ w.windowSize_ n b) % u64Mod) := by
  intro n
  induction n with
  | zero =>
    intro b acc _ hacc
    simp [sumLoop, cellsDown, Nat.mod_eq_of_lt hacc]
  | succ n ih =>
    intro b acc hn hacc
    have hgt : b > e := by omega
    have hacc2 : ∀ x, addU64 acc x < u64Mod := fun x =>
      Nat.mod_lt _ (by unfold u64Mod; positivity)
    simp only [sumLoop, hgt, if_true, elemAt_wf w hW hwf (show 0 ≤ b by omega)]
    rw [ih (b - 1) _ (by omega) (hacc2 _)]
    congr 1
    unfold addU64
    simp only [cellsDown]
    rw [mod_add_mod, Nat.add_assoc]

/-- With the class invariant and `beginIdx - min(len, windowSize) ≥ -1`, `sum` returns: zero on
the early exit, and otherwise the total, modulo `2 ^ 64`, of the cells from the clamped begin
index down to the end of the range. -/
theorem sum_cells (w : StatsWindow) (hwf : WF w) (b len : Int)
    (hlo : -1 ≤ b - min len w.windowSize_) :
    sum w b len = some
      (if min len w.windowSize_ ≤ 0 ∨ b - min len w.windowSize_ ≥ w.maxRingIdx_ then 0
       else cellsDown w.elements_ w.windowSize_
          (min b w.maxRingIdx_ - (b - min len w.windowSize_)).toNat (min b w.maxRingIdx_)
          % u64Mod) := by
  unfold sum
  by_cases hc : min len w.windowSize_ ≤ 0 ∨ b - min len w.windowSize_ ≥ w.maxRingIdx_
  · rw [if_pos hc, if_pos hc]
  · rw [if_neg hc, if_neg hc]
    have hW : 0 < w.windowSize_ := by
      have := min_le_right len w.windowSize_
      omega
    have hb : (if b > w.maxRingIdx_ then w.maxRingIdx_ else b) = min b w.maxRingIdx_ := by
      split <;> omega
    have hu : (0 : Nat) < u64Mod := by unfold u64Mod; positivity
    rw [hb, sumLoop_cells w hW hwf _ hlo _ _ 0 (by omega) hu, Nat.zero_add]

theorem cellsDown_le_succ (es : List Nat) (W : Int) :
    ∀ (n : Nat) (b : Int), cellsDown es W n b ≤ cellsDown es W (n + 1) b := by
  intro n
  induction n with
  | zero => intro b; simp [cellsDown]
  | succ n ih =>
    intro b
    have := ih (b - 1)
    simp only [cellsDown] at this ⊢
    omega

/-- A longer run of ring indices from the same begin index totals at least as much. -/
theorem cellsDown_mono (es : List Nat) (W : Int) (b : Int) {n m : Nat} (h : n ≤ m) :
    cellsDown es W n b ≤ cellsDown es W m b := by
  induction h with
  | refl => exact le_refl _
  | step _ ih => exact le_trans ih (cellsDown_le_succ es W _ b)

theorem sum_eq_getD_add_set_zero :
    ∀ (es : List Nat) (p : Nat), es.sum = es.getD p 0 + (es.set p 0).sum := by
  intro es
  induction es with
  | nil => intro p; simp
  | cons x rest ih =>
    intro p
    cases p with
    | zero => simp
    | succ p =>
      have := ih p
      simp only [List.getD_eq_getElem?_getD] at this
      simp only [List.sum_cons, List.set_cons_succ, List.getD_eq_getElem?_getD,
        List.getElem?_cons_succ]
      omega

/-- Zeroing a cell that the run does not visit leaves its total unchanged. -/
theorem cellsDown_set_other (es : List Nat) (W : Int) (p v : Nat) :
    ∀ (n : Nat) (b : Int), (∀ i, b - n < i → i ≤ b → (i % W).toNat ≠ p) →
      cellsDown (es.set p v) W n b = cellsDown es W n b := by
  intro n
  induction n with
  | zero => intro b _; rfl
  | succ n ih =>
    intro b h
    have h1 := h b (by omega) (le_refl b)
    simp only [cellsDown]
    rw [ih (b - 1) (fun i a c => h i (by omega) (by omega))]
    congr 1
    simp [List.getD_eq_getElem?_getD, List.getElem?_set, Ne.symm h1]

/-- A run of at most `W` ring indices visits every cell at most once, so its total is at most
the total of all cells. -/
theorem cellsDown_le_sum (W : Int) (hW : 0 < W) :
    ∀ (n : Nat) (es : List Nat) (b : Int), (n : Int) ≤ W → cellsDown es W n b ≤ es.sum := by
  intro n
  induction n with
  | zero => intro es b _; simp [cellsDown]
  | succ n ih =>
    intro es b hn
    simp only [cellsDown]
    rw [sum_eq_getD_add_set_zero es (b % W).toNat]
    have h := ih (es.set (b % W).toNat 0) (b - 1) (by omega)
    rw [cellsDown_set_other es W _ 0 n (b - 1)
      (fun i a c => pos_ne hW (by omega) (by omega) (by omega))] at h
    omega

end StatsWindow

/-! ## `mapMultiply` and runs of calls -/

namespace StatsWindow

/-- The loop of `mapMultiply` over a vector of `bound` cells scales every cell from position
`i` on and leaves the cells before `i` alone. -/
theorem mapMultiplyLoop_spec (val bound : Nat) :
    ∀ (n i : Nat) (es : List Nat), es.length = bound → i + n = bound →
      ∃ es', mapMultiplyLoop val bound n i es = some es' ∧ es'.length = es.length ∧
        ∀ k, es'[k]? = if i ≤ k then (es[k]?).map (fun x => mulU64 x val) else es[k]? := by
  intro n
  induction n with
  | zero =>
    intro i es hlen hi
    refine ⟨es, rfl, rfl, ?_⟩
    intro k
    split
    · have : es[k]? = none := List.getElem?_eq_none (by omega)
      rw [this]; rfl
    · rfl
  | succ n ih =>
    intro i es hlen hi
    have h1 : i < bound := by omega
    have h2 : i < es.length := by omega
    obtain ⟨es', hrun, hl, hk⟩ := ih (i + 1) (es.set i (mulU64 (es.getD i 0) val))
      (by simp [hlen]) (by omega)
    refine ⟨es', ?_, by simpa using hl, ?_⟩
    · simp only [mapMultiplyLoop, h1, h2, if_true]
      exact hrun
    · intro k
      rw [hk k]
      simp only [List.getElem?_set, List.getD_eq_getElem?_getD]
      by_cases hki : i = k
      · subst hki
        simp [h2]
      · by_cases hlt : i ≤ k
        · have : i + 1 ≤ k := by omega
          simp [hki, this, hlt]
        · have : ¬ i + 1 ≤ k := by omega
          simp [hki, this, hlt]

/-- With the class invariant `mapMultiply` returns and scales every cell. -/
theorem mapMultiply_wf (w : StatsWindow) (hwf : WF w) (c : Nat) :
    mapMultiply w c = some { w with elements_ := w.elements_.map (fun x => mulU64 x c) } := by
  have hb : sizeBound w.windowSize_ = w.elements_.length := by
    unfold sizeBound
    rw [if_pos hwf.1, hwf.2]
  obtain ⟨es', hrun, _, hk⟩ := mapMultiplyLoop_spec c (sizeBound w.windowSize_)
    (sizeBound w.windowSize_) 0 w.elements_ hb.symm (by omega)
  have he : es' = w.elements_.map (fun x => mulU64 x c) := by
    apply List.ext_getElem?
    intro k
    rw [hk k, List.getElem?_map]
    simp
  unfold mapMultiply
  rw [hrun, he]

theorem mul_mod_mod (c x : Nat) : (c * (x % u64Mod)) % u64Mod = (c * x) % u64Mod := by
  rw [Nat.mul_mod, Nat.mod_mod, ← Nat.mul_mod]

theorem getD_map_mul (es : List Nat) (c p : Nat) :
    (es.map (fun x => mulU64 x c)).getD p 0 = mulU64 (es.getD p 0) c := by
  simp only [List.getD_eq_getElem?_getD, List.getElem?_map]
  cases es[p]? with
  | none => simp [mulU64]
  | some x => rfl

/-- Scaling every cell scales the total of a run of ring indices, modulo `2 ^ 64`. -/
theorem cellsDown_map_mul (es : List Nat) (W : Int) (c : Nat) :
    ∀ (n : Nat) (b : Int),
      cellsDown (es.map (fun x => mulU64 x c)) W n b % u64Mod
        = (c * cellsDown es W n b) % u64Mod := by
  intro n
  induction n with
  | zero => intro b; simp [cellsDown]
  | succ n ih =>
    intro b
    simp only [cellsDown, getD_map_mul]
    rw [Nat.add_mod, ih (b - 1)]
    unfold mulU64
    rw [Nat.mod_mod, ← Nat.add_mod]
    congr 1
    rw [Nat.mul_add, Nat.mul_comm c (es.getD (b % W).toNat 0)]

/-- A run of `clear()` and `insert` calls at ring indices that are not negative returns on a
usable window and leaves it usable. -/
theorem runCalls_ok {W : Int} :
    ∀ (calls : List Call) (w : StatsWindow), Ok W w →
      (∀ c ∈ calls, ∀ i, c.idx = some i → 0 ≤ i) →
      ∃ w', runCalls w calls = some w' ∧ Ok W w' := by
  intro calls
  induction calls with
  | nil => intro w hw _; exact ⟨w, rfl, hw⟩
  | cons c rest ih =>
    intro w hw hnn
    have hrest : ∀ c' ∈ rest, ∀ i, c'.idx = some i → 0 ≤ i :=
      fun c' hc' => hnn c' (by simp [hc'])
    cases c with
    | clear =>
      obtain ⟨w', hrun, hok⟩ := ih (clear w)
        ⟨hw.pos, hw.size, by simp [clear, hw.size], by simp [clear]⟩ hrest
      exact ⟨w', by simp only [runCalls]; exact hrun, hok⟩
    | insert idx val =>
      have hi : 0 ≤ idx := hnn (Call.insert idx val) (by simp) idx rfl
      obtain ⟨w1, hins, hok1, _⟩ := insert_ok hw idx val hi
      obtain ⟨w', hrun, hok⟩ := ih w1 hok1 hrest
      exact ⟨w', by simp only [runCalls, hins]; exact hrun, hok⟩

end StatsWindow

/-! ## Theorems on `StatsWindow` -/

open StatsWindow

/-- C1 (as amended): on a fresh window of size `W > 0`, after any run of inserts at ring indices
`idx ≥ 0` with `idx + W ≤ INT64_MAX`, none aimed exactly `W` below the top index of its moment,
the run returns; and if the top index `maxIdx` is at least `W - 1`, then `sum(maxIdx, W)` is,
modulo `2 ^ 64`, the total of the values of all inserts whose index is greater than
`maxIdx - W`. -/
theorem sum_whole_window (W : Int) (hW : 0 < W) (seq : List (Int × Nat))
    (hnn : ∀ p ∈ seq, 0 ≤ p.1 ∧ p.1 + W ≤ INT64_MAX)
    (hoff : Machine.offBoundary (construct W) seq = true) :
    ∃ w, Machine.insertAll (construct W) seq = some w ∧
      (W - 1 ≤ w.maxRingIdx_ →
        sum w w.maxRingIdx_ W = some (valuesAbove seq (w.maxRingIdx_ - W) % u64Mod)) := by
  have hm := machine_insertAll_eq seq (construct W) (tracks_construct hW).ok hnn
  rw [hm.2] at hoff
  rw [hm.1]
  obtain ⟨w, hrun, ht, _⟩ :=
    tracks_insertAll seq (construct W) [] (tracks_construct hW) (fun p hp => (hnn p hp).1) hoff
  refine ⟨w, hrun, ?_⟩
  intro hfull
  simp only [List.nil_append] at ht
  have h := sum_tracks ht w.maxRingIdx_ W (by simpa using hW) (by simp; omega)
  rw [h, min_self, valuesAbove_eq_valuesIn seq _ w.maxRingIdx_ ht.seen]

/-- Witness of `sum_whole_window`: size 2, inserts `(5, 1)` then `(4, 10)`; the top index is 5
and `sum(5, 2) = 11`. -/
theorem sum_whole_window_witness :
    ∃ w, Machine.insertAll (construct 2) [(5, 1), (4, 10)] = some w ∧ w.maxRingIdx_ = 5 ∧
      sum w w.maxRingIdx_ 2 = some 11 := by
  obtain ⟨w, hrun, hs⟩ :=
    sum_whole_window 2 (by decide) [(5, 1), (4, 10)] (by decide) (by decide)
  have he : Machine.insertAll (construct 2) [(5, 1), (4, 10)] = some ⟨5, 2, [10, 1]⟩ := by
    decide
  have hw : w = ⟨5, 2, [10, 1]⟩ := by
    rw [he] at hrun
    exact (Option.some.inj hrun).symm
  subst hw
  exact ⟨_, he, rfl, by rw [hs (by decide)]; decide⟩

/-- C1 fails as stated, in a window of size 2. `insert(5, 1)` then `insert(3, 10)`: the second
index is exactly `windowSize` below the top, it is not dropped, and its value lands in the cell
of index 5, so `sum(5, 2)` is 11 while the inserts above index 3 total 1. `insert(5, 1)` then
`insert(INT64_MAX, 1)`: the `int64_t` sum of the stale test wraps, the second insert is dropped,
and `sum(5, 2)` is 1 while the inserts above index 3 total 2. On a fresh window (no insert at
all) `sum(maxIdx, 2) = sum(-1, 2)` subscripts the vector out of range, and so does
`insert(-1, 1)`. -/
theorem sum_whole_window_counterexample :
    (Machine.insertAll (construct 2) [(5, 1), (3, 10)] = some ⟨5, 2, [0, 11]⟩ ∧
      sum ⟨5, 2, [0, 11]⟩ 5 2 = some 11 ∧ valuesAbove [(5, 1), (3, 10)] (5 - 2) = 1) ∧
    (Machine.insertAll (construct 2) [(5, 1), (INT64_MAX, 1)] = some ⟨5, 2, [0, 1]⟩ ∧
      sum ⟨5, 2, [0, 1]⟩ 5 2 = some 1 ∧ valuesAbove [(5, 1), (INT64_MAX, 1)] (5 - 2) = 2) ∧
    sum (construct 2) (construct 2).maxRingIdx_ 2 = none ∧
    Machine.insertAll (construct 2) [(-1, 1)] = none := by
  decide

/-- C2 (as amended): on a fresh window of size `W > 0`, after any run of inserts at ring indices
`idx ≥ 0` with `idx + W ≤ INT64_MAX`, none aimed exactly `W` below the top index of its moment,
the run returns; and for every `beginIdx` and `len` with `L = min(len, W) > 0` and
`beginIdx - L ≥ max(maxIdx - W, -1)`, `sum(beginIdx, len)` is, modulo `2 ^ 64`, the total of the
values of all inserts whose index lies in `(beginIdx - L, beginIdx]`. The top index `maxIdx` is
the largest inserted index. -/
theorem sum_eq_reference (W : Int) (hW : 0 < W) (seq : List (Int × Nat))
    (hnn : ∀ p ∈ seq, 0 ≤ p.1 ∧ p.1 + W ≤ INT64_MAX)
    (hoff : Machine.offBoundary (construct W) seq = true) :
    ∃ w, Machine.insertAll (construct W) seq = some w ∧
      w.maxRingIdx_ = seq.foldl (fun m p => max m p.1) (-1) ∧
      ∀ beginIdx len : Int, 0 < min len W →
        max (w.maxRingIdx_ - W) (-1) ≤ beginIdx - min len W →
        sum w beginIdx len = some (valuesIn seq (beginIdx - min len W) beginIdx % u64Mod) := by
  have hm := machine_insertAll_eq seq (construct W) (tracks_construct hW).ok hnn
  rw [hm.2] at hoff
  rw [hm.1]
  obtain ⟨w, hrun, ht, hmax⟩ :=
    tracks_insertAll seq (construct W) [] (tracks_construct hW) (fun p hp => (hnn p hp).1) hoff
  simp only [List.nil_append] at ht
  exact ⟨w, hrun, hmax, fun b len hL hlo => sum_tracks ht b len hL hlo⟩

set_option maxRecDepth 20000 in
/-- Witness of `sum_eq_reference`, the scenario of the specification: `(100, 5)` then `(101, 7)`
into a window of size 900 gives `sum(101, 2) = 12`, `sum(101, 1) = 7`, `sum(100, 1) = 5`. -/
theorem sum_eq_reference_witness :
    ∃ w, Machine.insertAll (construct 900) [(100, 5), (101, 7)] = some w ∧
      sum w 101 2 = some 12 ∧ sum w 101 1 = some 7 ∧ sum w 100 1 = some 5 := by
  obtain ⟨w, hrun, hm, hs⟩ :=
    sum_eq_reference 900 (by decide) [(100, 5), (101, 7)] (by decide) (by decide)
  have hm' : w.maxRingIdx_ = 101 := by rw [hm]; decide
  refine ⟨w, hrun, ?_, ?_, ?_⟩
  · rw [hs 101 2 (by decide) (by rw [hm']; decide)]; decide
  · rw [hs 101 1 (by decide) (by rw [hm']; decide)]; decide
  · rw [hs 100 1 (by decide) (by rw [hm']; decide)]; decide

/-- C2 fails as stated. In a window of size 2, `insert(5, 1)` then `insert(INT64_MAX, 1)`: both
indices are not negative and neither is on the boundary, but the `int64_t` sum
`INT64_MAX + 2` of the stale test wraps, the second insert is dropped and the top index stays
5. The query `sum(INT64_MAX, 1)` meets the conditions of the claim and returns 0, while the
inserts in `(INT64_MAX - 1, INT64_MAX]` total 1. -/
theorem sum_eq_reference_counterexample :
    (∀ p ∈ [((5 : Int), (1 : Nat)), (INT64_MAX, 1)], 0 ≤ p.1) ∧
    Machine.offBoundary (construct 2) [(5, 1), (INT64_MAX, 1)] = true ∧
    Machine.insertAll (construct 2) [(5, 1), (INT64_MAX, 1)] = some ⟨5, 2, [0, 1]⟩ ∧
    ((0 : Int) < min 1 2 ∧ max ((5 : Int) - 2) (-1) ≤ INT64_MAX - min 1 2) ∧
    sum ⟨5, 2, [0, 1]⟩ INT64_MAX 1 = some 0 ∧
    valuesIn [(5, 1), (INT64_MAX, 1)] (INT64_MAX - min 1 2) INT64_MAX % u64Mod = 1 := by
  decide

/-- C3 (as amended): for every timestamp `T ≥ 900`, after `insert(T, 1)` and `insert(T + 30, 1)`
into a fresh window of size 900, `sum(T + 30, 60)` is 2, `sum(T + 90, 60)` is 0 (the share at
`T + 30` is a full 60 seconds old and falls outside `(T + 30, T + 90]`), `sum(T + 700, 300)` is
0 and `sum(T + 700, 900)` is 2. -/
theorem two_shares_queries (T : Int) (hT : 900 ≤ T) :
    ∃ w, insertAll (construct 900) [(T, 1), (T + 30, 1)] = some w ∧
      sum w (T + 30) 60 = some 2 ∧ sum w (T + 90) 60 = some 0 ∧
      sum w (T + 700) 300 = some 0 ∧ sum w (T + 700) 900 = some 2 := by
  obtain ⟨w1, h1, t1, m1⟩ := tracks_insert (tracks_construct (W := 900) (by decide)) T 1
    (by omega) (by rw [construct_maxRingIdx]; omega)
  have m1' : w1.maxRingIdx_ = T := by rw [construct_maxRingIdx] at m1; omega
  obtain ⟨w2, h2, t2, m2⟩ := tracks_insert t1 (T + 30) 1 (by omega) (by omega)
  have m2' : w2.maxRingIdx_ = T + 30 := by omega
  simp only [List.nil_append, List.singleton_append] at t2
  have e60 : min (60 : Int) 900 = 60 := by decide
  have e300 : min (300 : Int) 900 = 300 := by decide
  have e900 : min (900 : Int) 900 = 900 := by decide
  refine ⟨w2, by simp only [insertAll, h1, h2], ?_, ?_, ?_, ?_⟩
  · rw [sum_tracks t2 (T + 30) 60 (by decide) (by rw [e60, m2']; omega), e60,
      valuesIn_cons, valuesIn_cons, valuesIn_nil,
      if_pos (by constructor <;> simp only [] <;> omega),
      if_pos (by constructor <;> simp only [] <;> omega)]
    rfl
  · rw [sum_tracks t2 (T + 90) 60 (by decide) (by rw [e60, m2']; omega), e60,
      valuesIn_cons, valuesIn_cons, valuesIn_nil,
      if_neg (by simp only []; omega), if_neg (by simp only []; omega)]
    decide
  · rw [sum_tracks t2 (T + 700) 300 (by decide) (by rw [e300, m2']; omega), e300,
      valuesIn_cons, valuesIn_cons, valuesIn_nil,
      if_neg (by simp only []; omega), if_neg (by simp only []; omega)]
    decide
  · rw [sum_tracks t2 (T + 700) 900 (by decide) (by rw [e900, m2']; omega), e900,
      valuesIn_cons, valuesIn_cons, valuesIn_nil,
      if_pos (by constructor <;> simp only [] <;> omega),
      if_pos (by constructor <;> simp only [] <;> omega)]
    rfl

/-- Witness of `two_shares_queries` at `T = 1000`. -/
theorem two_shares_queries_witness :
    (900 : Int) ≤ 1000 ∧
    ∃ w, insertAll (construct 900) [(1000, 1), (1000 + 30, 1)] = some w ∧
      sum w (1000 + 30) 60 = some 2 ∧ sum w (1000 + 90) 60 = some 0 ∧
      sum w (1000 + 700) 300 = some 0 ∧ sum w (1000 + 700) 900 = some 2 :=
  ⟨by decide, two_shares_queries 1000 (by decide)⟩

set_option maxRecDepth 20000 in
/-- C3 fails as stated: at `T = 900` the one-minute query at `T + 90` returns 0, not 1. -/
theorem two_shares_queries_counterexample :
    ∃ w, insertAll (construct 900) [(900, 1), (930, 1)] = some w ∧ sum w 990 60 = some 0 ∧
      sum w 990 60 ≠ some 1 := by
  refine ⟨⟨930, 900, ((List.replicate 900 0).set 0 1).set 30 1⟩, ?_, ?_, ?_⟩ <;> decide

/-- C4 (as amended): for every window and every `idx`, `val` whose sum `idx + windowSize` is an
`int64_t` (it lies in `[INT64_MIN, INT64_MAX]`): `insert(idx, val)` returns `false` if and only
if `idx + windowSize < maxIdx`, and then the window is unchanged; in every other case a call
that returns, returns `true`, and the call does return when the window has a positive size, its
vector has `windowSize` cells, `maxIdx ≥ -1` and `idx ≥ 0`. -/
theorem insert_stale_rejected (w : StatsWindow) (idx : Int) (val : Nat)
    (hlo : INT64_MIN ≤ idx + w.windowSize_) (hhi : idx + w.windowSize_ ≤ INT64_MAX) :
    ((∃ w', Machine.insert w idx val = some (false, w')) ↔
      idx + w.windowSize_ < w.maxRingIdx_) ∧
    (∀ w', Machine.insert w idx val = some (false, w') → w' = w) ∧
    (¬ idx + w.windowSize_ < w.maxRingIdx_ →
      ∀ b w', Machine.insert w idx val = some (b, w') → b = true) ∧
    (¬ idx + w.windowSize_ < w.maxRingIdx_ → 0 < w.windowSize_ → WF w →
      -1 ≤ w.maxRingIdx_ → 0 ≤ idx → ∃ w', Machine.insert w idx val = some (true, w')) := by
  have hwrap : wrapI64 (idx + w.windowSize_) = idx + w.windowSize_ :=
    wrapI64_of_range (by unfold INT64_MIN at hlo; exact hlo) hhi
  have hflag : ¬ idx + w.windowSize_ < w.maxRingIdx_ →
      ∀ b w', Machine.insert w idx val = some (b, w') → b = true := by
    intro hs b w' h
    exact machine_insert_flag w idx val (by rw [hwrap]; exact hs) b w' h
  refine ⟨⟨?_, ?_⟩, ?_, hflag, ?_⟩
  · rintro ⟨w', h⟩
    by_contra hs
    have := hflag hs false w' h
    simp at this
  · intro hs
    exact ⟨w, machine_insert_stale w idx val (by rw [hwrap]; exact hs)⟩
  · intro w' h
    by_cases hs : idx + w.windowSize_ < w.maxRingIdx_
    · rw [machine_insert_stale w idx val (by rw [hwrap]; exact hs)] at h
      simp only [Option.some.injEq, Prod.mk.injEq, true_and] at h
      exact h.symm
    · have := hflag hs false w' h
      simp at this
  · intro hs hW hwf htop hi
    obtain ⟨w', h, _, _⟩ := insert_ok (W := w.windowSize_) ⟨hW, rfl, hwf.2, htop⟩ idx val hi
    refine ⟨w', ?_⟩
    rw [machine_insert_eq w idx val hW hi hhi htop, h]
    simp [hs]

/-- Witness of `insert_stale_rejected` on the window of size 2 with top index 5: index 1 is
stale, index 6 is accepted. -/
theorem insert_stale_rejected_witness :
    (INT64_MIN ≤ (1 : Int) + 2 ∧ (1 : Int) + 2 ≤ INT64_MAX ∧ (1 : Int) + 2 < 5) ∧
    Machine.insert ⟨5, 2, [0, 1]⟩ 1 3 = some (false, ⟨5, 2, [0, 1]⟩) ∧
    (INT64_MIN ≤ (6 : Int) + 2 ∧ (6 : Int) + 2 ≤ INT64_MAX ∧ ¬ (6 : Int) + 2 < 5 ∧
      (0 : Int) < 2 ∧ WF ⟨5, 2, [0, 1]⟩ ∧ (-1 : Int) ≤ 5 ∧ (0 : Int) ≤ 6) ∧
    ∃ w', Machine.insert ⟨5, 2, [0, 1]⟩ 6 3 = some (true, w') :=
  ⟨by decide, by decide, by decide,
    (insert_stale_rejected ⟨5, 2, [0, 1]⟩ 6 3 (by decide) (by decide)).2.2.2 (by decide)
      (by decide) (by decide) (by decide) (by decide)⟩

/-- C4 fails as stated. On a fresh window of size 2, `insert(INT64_MAX, 1)` has
`idx + windowSize < maxIdx` false, yet the `int64_t` sum of the stale test wraps and the call
returns `false`. On a fresh window of size 0, `insert(0, 1)` is not stale either and computes
`0 % 0`, so it has no defined result. -/
theorem insert_stale_rejected_counterexample :
    (¬ (INT64_MAX + (construct 2).windowSize_ < (construct 2).maxRingIdx_) ∧
      Machine.insert (construct 2) INT64_MAX 1 = some (false, construct 2)) ∧
    (¬ ((0 : Int) + (construct 0).windowSize_ < (construct 0).maxRingIdx_) ∧
      Machine.insert (construct 0) 0 1 = none) := by
  decide

/-- C5 (as amended): for every window with `windowSize = W > 0` and `maxIdx ≥ -1` (every state
reached with ring indices that are not negative), every `idx ≥ 0` with `idx - maxIdx > W` and
`idx + W ≤ INT64_MAX`, and every `uint64_t` value `v`, `insert(idx, v)` returns `true`, the new
top index is `idx`, the vector has `W` cells, `cells[idx mod W] = v` and every other cell is
zero; consequently `sum(idx, W) = v`. -/
theorem insert_too_new_resets (w : StatsWindow) (idx : Int) (v : Nat)
    (hW : 0 < w.windowSize_) (htop : -1 ≤ w.maxRingIdx_) (hi : 0 ≤ idx)
    (hgap : idx - w.maxRingIdx_ > w.windowSize_) (hb : idx + w.windowSize_ ≤ INT64_MAX)
    (hv : v < u64Mod) :
    ∃ w', Machine.insert w idx v = some (true, w') ∧ w'.maxRingIdx_ = idx ∧
      w'.windowSize_ = w.windowSize_ ∧ w'.elements_.length = w.windowSize_.toNat ∧
      w'.elements_[(idx % w.windowSize_).toNat]? = some v ∧
      (∀ k, k < w.windowSize_.toNat → k ≠ (idx % w.windowSize_).toNat →
        w'.elements_[k]? = some 0) ∧
      sum w' idx w.windowSize_ = some v := by
  have hs : ¬ idx + w.windowSize_ < w.maxRingIdx_ := by omega
  have hins := insert_reset w idx v hW hi hs (Or.inr hgap)
  rw [← machine_insert_eq w idx v hW hi hb htop] at hins
  have hp := pos_lt (W := w.windowSize_) (i := idx) hW
  have hadd : addU64 0 v = v := by simp [addU64, Nat.mod_eq_of_lt hv]
  refine ⟨_, hins, rfl, rfl, by simp, ?_, ?_, ?_⟩
  · simp [List.getElem?_set, hp, hadd]
  · intro k hk hne
    simp [List.getElem?_set, Ne.symm hne, List.getElem?_replicate, hk]
  · -- the same state is reached from a fresh window, which is in step with the empty log
    obtain ⟨w', h', ht, _⟩ := tracks_insert (tracks_construct hW) idx v hi
      (by rw [construct_maxRingIdx]; omega)
    have hfresh := insert_reset (construct w.windowSize_) idx v hW hi
      (by rw [construct_maxRingIdx]; simp only [construct_windowSize]; omega)
      (Or.inl (construct_maxRingIdx _))
    rw [hfresh] at h'
    simp only [construct_windowSize, Option.some.injEq, Prod.mk.injEq] at h'
    rw [h'.2]
    simp only [List.nil_append] at ht
    have hm : w'.maxRingIdx_ = idx := by rw [← h'.2]
    rw [sum_tracks ht idx w.windowSize_ (by simpa using hW) (by rw [hm, min_self]; omega),
      min_self, valuesIn_cons, valuesIn_nil, if_pos (by constructor <;> simp only [] <;> omega)]
    simp [Nat.mod_eq_of_lt hv]

set_option maxRecDepth 20000 in
/-- Witness of `insert_too_new_resets`, the scenario of the specification: `(100, 5)` then
`(1100, 9)` into a window of size 900 resets it, and `sum(1100, 900) = 9`. -/
theorem insert_too_new_resets_witness :
    Machine.insertAll (construct 900) [(100, 5)]
      = some ⟨100, 900, (List.replicate 900 0).set 100 5⟩ ∧
    ∃ w', Machine.insert ⟨100, 900, (List.replicate 900 0).set 100 5⟩ 1100 9
        = some (true, w') ∧
      w'.maxRingIdx_ = 1100 ∧ sum w' 1100 900 = some 9 := by
  refine ⟨by decide, ?_⟩
  obtain ⟨w', h, hm, _, _, _, _, hsum⟩ :=
    insert_too_new_resets ⟨100, 900, (List.replicate 900 0).set 100 5⟩ 1100 9
      (by decide) (by decide) (by decide) (by decide) (by decide) (by decide)
  exact ⟨w', h, hm, hsum⟩

/-- C5 fails as stated. The window of size 2 that `insert(5, 1)` leaves has top index 5;
`insert(INT64_MAX, 9)` has `idx ≥ 0` and `idx - maxIdx > windowSize`, but the `int64_t` sum of
the stale test wraps: the call returns `false`, the top index stays 5, the window is not reset,
and `sum(INT64_MAX, 2)` is 0, not 9. -/
theorem insert_too_new_resets_counterexample :
    Machine.insertAll (construct 2) [(5, 1)] = some ⟨5, 2, [0, 1]⟩ ∧
    ((0 : Int) < 2 ∧ 0 ≤ INT64_MAX ∧ INT64_MAX - 5 > 2) ∧
    Machine.insert ⟨5, 2, [0, 1]⟩ INT64_MAX 9 = some (false, ⟨5, 2, [0, 1]⟩) ∧
    sum ⟨5, 2, [0, 1]⟩ INT64_MAX 2 = some 0 := by
  decide

/-- C6: in every window and for every `beginIdx`, `sum(beginIdx, len)` returns zero whenever
`len ≤ 0`, and for every `len > windowSize` it equals `sum(beginIdx, windowSize)`. -/
theorem sum_len_clamped (w : StatsWindow) (beginIdx len : Int) :
    (len ≤ 0 → sum w beginIdx len = some 0) ∧
    (w.windowSize_ < len → sum w beginIdx len = sum w beginIdx w.windowSize_) := by
  constructor
  · intro h
    have : min len w.windowSize_ ≤ 0 := le_trans (min_le_left _ _) h
    simp [sum, this]
  · intro h
    have e : min len w.windowSize_ = min w.windowSize_ w.windowSize_ := by
      rw [min_self, min_eq_right (le_of_lt h)]
    unfold sum
    rw [e]

/-- Witness of `sum_len_clamped` on the window of size 2 with top index 5 and cells `[0, 11]`. -/
theorem sum_len_clamped_witness :
    ((0 : Int) ≤ 0 ∧ sum ⟨5, 2, [0, 11]⟩ 5 0 = some 0) ∧
    ((2 : Int) < 7 ∧ sum ⟨5, 2, [0, 11]⟩ 5 7 = sum ⟨5, 2, [0, 11]⟩ 5 2 ∧
      sum ⟨5, 2, [0, 11]⟩ 5 7 = some 11) :=
  ⟨⟨by decide, (sum_len_clamped ⟨5, 2, [0, 11]⟩ 5 0).1 (by decide)⟩,
    ⟨by decide, (sum_len_clamped ⟨5, 2, [0, 11]⟩ 5 7).2 (by decide), by decide⟩⟩

/-- C7 (as amended): in every window, for every `beginIdx` and `len` with `0 < len ≤ windowSize`
whose range `(beginIdx - len, beginIdx]` lies entirely above the top index
(`beginIdx - len ≥ maxIdx`), `sum(beginIdx, len)` returns zero. Nothing is promised for a range
at or below `maxIdx - windowSize`. -/
theorem sum_future_range_zero (w : StatsWindow) (beginIdx len : Int) (_hlen : 0 < len)
    (hle : len ≤ w.windowSize_) (hfut : beginIdx - len ≥ w.maxRingIdx_) :
    sum w beginIdx len = some 0 := by
  unfold sum
  rw [min_eq_left hle]
  simp [hfut]

/-- Witness of `sum_future_range_zero`: top index 5, query `sum(7, 2)`. -/
theorem sum_future_range_zero_witness :
    ((0 : Int) < 2 ∧ (2 : Int) ≤ 2 ∧ (7 : Int) - 2 ≥ 5) ∧
      sum ⟨5, 2, [0, 11]⟩ 7 2 = some 0 :=
  ⟨by decide, sum_future_range_zero ⟨5, 2, [0, 11]⟩ 7 2 (by decide) (by decide) (by decide)⟩

/-- C7 fails as stated for an ancient range. After `insert(5, 1)` into a fresh window of size 2
the query `sum(3, 1)` has `beginIdx = 3 ≤ maxIdx - windowSize` and `beginIdx - len = 2 ≥ -1`,
and it returns 1: ring index 3 shares its cell with the live index 5. -/
theorem sum_future_range_zero_counterexample :
    insertAll (construct 2) [(5, 1)] = some ⟨5, 2, [0, 1]⟩ ∧
    ((0 : Int) ≤ 3 ∧ (0 : Int) < 1 ∧ (1 : Int) ≤ 2 ∧ (3 : Int) ≤ 5 - 2 ∧
      (3 : Int) - 1 ≥ -1) ∧
    sum ⟨5, 2, [0, 1]⟩ 3 1 = some 1 := by
  decide

/-- C8 (as amended): for a window of size `W > 0`, freshly constructed or just cleared, and every
run of inserts at ring indices `idx ≥ 0` with `idx + W ≤ INT64_MAX`, the run returns, the top
index afterwards is the largest index of the run (dropped inserts included) and `-1` for the
empty run, it is `-1` exactly when the run is empty, and it is at least the top index after any
initial part of the run. -/
theorem maxRingIdx_is_highest (W : Int) (hW : 0 < W) (seq : List (Int × Nat))
    (hnn : ∀ p ∈ seq, 0 ≤ p.1 ∧ p.1 + W ≤ INT64_MAX) :
    (∀ w0 : StatsWindow, w0.windowSize_ = W → clear w0 = construct W) ∧
    ∃ w, Machine.insertAll (construct W) seq = some w ∧
      w.maxRingIdx_ = seq.foldl (fun m p => max m p.1) (-1) ∧
      (w.maxRingIdx_ = -1 ↔ seq = []) ∧
      ∀ s1 s2, seq = s1 ++ s2 →
        ∃ w1, Machine.insertAll (construct W) s1 = some w1 ∧
          w1.maxRingIdx_ ≤ w.maxRingIdx_ := by
  have hok : Ok W (construct W) := (tracks_construct hW).ok
  have hpos : ∀ p ∈ seq, 0 ≤ p.1 := fun p hp => (hnn p hp).1
  refine ⟨?_, ?_⟩
  · intro w0 h0
    simp [clear, construct, h0]
  · obtain ⟨w, hrun, _, hm⟩ := insertAll_ok seq (construct W) hok hpos
    rw [construct_maxRingIdx] at hm
    refine ⟨w, by rw [(machine_insertAll_eq seq (construct W) hok hnn).1]; exact hrun, hm,
      ?_, ?_⟩
    · constructor
      · intro h
        cases seq with
        | nil => rfl
        | cons p rest =>
          exfalso
          have h0 := hpos p (by simp)
          have := foldl_max_ge rest (max (-1) p.1)
          simp only [List.foldl_cons] at hm
          omega
      · intro h
        rw [hm, h]; rfl
    · intro s1 s2 hsplit
      subst hsplit
      have hnn1 : ∀ p ∈ s1, 0 ≤ p.1 ∧ p.1 + W ≤ INT64_MAX :=
        fun p hp => hnn p (by simp [hp])
      obtain ⟨w1, hrun1, hok1, _⟩ := insertAll_ok s1 (construct W) hok
        (fun p hp => hpos p (by simp [hp]))
      obtain ⟨w2, hrun2, _, hm2⟩ := insertAll_ok s2 w1 hok1 (fun p hp => hpos p (by simp [hp]))
      refine ⟨w1, by rw [(machine_insertAll_eq s1 (construct W) hok hnn1).1]; exact hrun1, ?_⟩
      rw [insertAll_append, hrun1] at hrun
      simp only [Option.bind] at hrun
      rw [hrun2] at hrun
      simp only [Option.some.injEq] at hrun
      rw [← hrun, hm2]
      exact foldl_max_ge s2 _

/-- Witness of `maxRingIdx_is_highest`: size 2 and the run 5, 1 (dropped), 7, 6. -/
theorem maxRingIdx_is_highest_witness :
    (0 : Int) < 2 ∧
    ∃ w, Machine.insertAll (construct 2) [(5, 1), (1, 1), (7, 1), (6, 1)] = some w ∧
      w.maxRingIdx_ = 7 := by
  obtain ⟨_, w, hrun, hm, _⟩ := maxRingIdx_is_highest 2 (by decide)
    [(5, 1), (1, 1), (7, 1), (6, 1)] (by decide)
  exact ⟨by decide, w, hrun, by rw [hm]; decide⟩

/-- C8 fails as stated. On a fresh window of size 2 the run of the single insert
`insert(INT64_MAX, 1)` is not empty, but the `int64_t` sum of the stale test wraps, the insert
is dropped and the top index stays `-1` instead of `INT64_MAX`. On a window of size 0 the vector
is empty and `insert(0, 1)` computes `0 % 0`, so the run has no defined result and no top
index. -/
theorem maxRingIdx_is_highest_counterexample :
    ((∀ p ∈ [(INT64_MAX, (1 : Nat))], 0 ≤ p.1) ∧
      Machine.insertAll (construct 2) [(INT64_MAX, 1)] = some (construct 2) ∧
      (construct 2).maxRingIdx_ = -1 ∧
      [(INT64_MAX, (1 : Nat))].foldl (fun m p => max m p.1) (-1) = INT64_MAX) ∧
    Machine.insertAll (construct 0) [(0, 1)] = none := by
  decide

/-- C12: for every window, after `clear()` the top index is `-1`, the vector has exactly
`windowSize` cells (the size of a window is never negative) and every cell is zero, that is,
the state is that of a freshly constructed window of the same size; and `clear` is
idempotent. -/
theorem clear_restores_empty (w : StatsWindow) :
    (clear w).maxRingIdx_ = -1 ∧ (clear w).windowSize_ = w.windowSize_ ∧
    (0 ≤ w.windowSize_ → ((clear w).elements_.length : Int) = w.windowSize_) ∧
    (∀ x ∈ (clear w).elements_, x = 0) ∧
    clear w = construct w.windowSize_ ∧
    clear (clear w) = clear w := by
  refine ⟨rfl, rfl, ?_, ?_, rfl, rfl⟩
  · intro h
    simp only [clear, List.length_replicate]
    omega
  · intro x hx
    simp only [clear] at hx
    exact List.eq_of_mem_replicate hx

/-- Witness of `clear_restores_empty` on the window of size 2 with top index 5 and cells
`[0, 11]`. -/
theorem clear_restores_empty_witness :
    (0 : Int) ≤ 2 ∧ clear ⟨5, 2, [0, 11]⟩ = ⟨-1, 2, [0, 0]⟩ ∧
    ((clear ⟨5, 2, [0, 11]⟩).elements_.length : Int) = 2 :=
  ⟨by decide, by decide, (clear_restores_empty ⟨5, 2, [0, 11]⟩).2.2.1 (by decide)⟩

/-- C14: for every window with `windowSize > 0`, every ring index `i ≥ 0` and all values `a`,
`b`, `insert(i, a)` then `insert(i, b)` has the same outcome, the two returned flags and the
final state (top index and all cells), as `insert(i, b)` then `insert(i, a)`; the two flags of
a run are equal to each other; and in a window whose vector has `windowSize` cells and whose
top index is at least `-1` both runs return. -/
theorem insert_same_bucket_commutes (w : StatsWindow) (i : Int) (a b : Nat)
    (hW : 0 < w.windowSize_) (hi : 0 ≤ i) :
    insertTwice w i a b = insertTwice w i b a ∧
    (∀ r, insertTwice w i a b = some r → r.1.1 = r.1.2) ∧
    (WF w → -1 ≤ w.maxRingIdx_ → ∃ r, insertTwice w i a b = some r) := by
  have hboth : insertTwice w i a b = insertTwice w i b a ∧
      (∀ r, insertTwice w i a b = some r → r.1.1 = r.1.2) := by
    by_cases hs : i + w.windowSize_ < w.maxRingIdx_
    · have e : ∀ x y, insertTwice w i x y = some ((false, false), w) := by
        intro x y
        unfold insertTwice
        rw [insert_stale w i x hs]
        simp only
        rw [insert_stale w i y hs]
      rw [e a b, e b a]
      refine ⟨rfl, ?_⟩
      intro r hr
      simp only [Option.some.injEq] at hr
      rw [← hr]
    · rcases insert_split w i hW hs with hnone | ⟨w2, k, hsz, h1, h2, hpos, hins⟩
      · have e : ∀ x y, insertTwice w i x y = none := by
          intro x y
          unfold insertTwice
          rw [hnone x]
        rw [e a b, e b a]
        exact ⟨rfl, by intro r hr; simp at hr⟩
      · have e := insertTwice_accepted w w2 i k hi h1 (by rw [hsz]; exact h2) hpos hins
        rw [e a b, e b a, addU64_swap]
        refine ⟨rfl, ?_⟩
        intro r hr
        simp only [Option.some.injEq] at hr
        rw [← hr]
  refine ⟨hboth.1, hboth.2, ?_⟩
  intro hwf htop
  obtain ⟨w1, hins1, hok1, _⟩ :=
    insert_ok (W := w.windowSize_) ⟨hW, rfl, hwf.2, htop⟩ i a hi
  obtain ⟨w2, hins2, _, _⟩ := insert_ok hok1 i b hi
  unfold insertTwice
  rw [hins1]
  simp only
  rw [hins2]
  exact ⟨_, rfl⟩

/-- Witness of `insert_same_bucket_commutes`: top index 5, size 2, two inserts at index 6. -/
theorem insert_same_bucket_commutes_witness :
    ((0 : Int) < 2 ∧ (0 : Int) ≤ 6) ∧
    insertTwice ⟨5, 2, [3, 11]⟩ 6 4 9 = insertTwice ⟨5, 2, [3, 11]⟩ 6 9 4 ∧
    insertTwice ⟨5, 2, [3, 11]⟩ 6 4 9 = some ((true, true), ⟨6, 2, [13, 11]⟩) :=
  ⟨by decide,
    (insert_same_bucket_commutes ⟨5, 2, [3, 11]⟩ 6 4 9 (by decide) (by decide)).1,
    by decide⟩

/-- C15: for every window (its vector has `windowSize` cells) and every factor `c`,
`mapMultiply(c)` returns, the top index is unchanged, each cell is `c` times its previous value
modulo `2 ^ 64`, and for every `beginIdx`, `len` with `beginIdx - min(len, windowSize) ≥ -1`,
`sum(beginIdx, len)` returns before and after the call, and the value after is `c` times the
value before, modulo `2 ^ 64`. -/
theorem mapMultiply_scales (w : StatsWindow) (hwf : WF w) (c : Nat) :
    ∃ w', mapMultiply w c = some w' ∧ w'.maxRingIdx_ = w.maxRingIdx_ ∧
      w'.windowSize_ = w.windowSize_ ∧ w'.elements_.length = w.elements_.length ∧
      (∀ k, k < w.elements_.length →
        w'.elements_.getD k 0 = (c * w.elements_.getD k 0) % 2 ^ 64) ∧
      ∀ beginIdx len : Int, -1 ≤ beginIdx - min len w.windowSize_ →
        ∃ s, sum w beginIdx len = some s ∧ sum w' beginIdx len = some ((c * s) % 2 ^ 64) := by
  refine ⟨_, mapMultiply_wf w hwf c, rfl, rfl, by simp, ?_, ?_⟩
  · intro k _
    rw [getD_map_mul, Nat.mul_comm]
    rfl
  · intro b len hlo
    have hwf' : WF { w with elements_ := w.elements_.map (fun x => mulU64 x c) } :=
      ⟨hwf.1, by simp [hwf.2]⟩
    refine ⟨_, sum_cells w hwf b len hlo, ?_⟩
    rw [sum_cells _ hwf' b len hlo]
    simp only
    congr 1
    split
    · simp
    · rw [cellsDown_map_mul]
      exact (mul_mod_mod c _).symm

/-- Witness of `mapMultiply_scales`: top index 5, cells `[3, 11]`, factor 4; `sum(5, 2)` goes
from 14 to 56. -/
theorem mapMultiply_scales_witness :
    WF ⟨5, 2, [3, 11]⟩ ∧ mapMultiply ⟨5, 2, [3, 11]⟩ 4 = some ⟨5, 2, [12, 44]⟩ ∧
    ∃ w', mapMultiply ⟨5, 2, [3, 11]⟩ 4 = some w' ∧ sum ⟨5, 2, [3, 11]⟩ 5 2 = some 14 ∧
      sum w' 5 2 = some 56 := by
  obtain ⟨w', hm, _, _, _, _, hs⟩ := mapMultiply_scales ⟨5, 2, [3, 11]⟩ (by decide) 4
  obtain ⟨s, h1, h2⟩ := hs 5 2 (by decide)
  have e : sum ⟨5, 2, [3, 11]⟩ 5 2 = some 14 := by decide
  rw [e] at h1
  have hs14 : s = 14 := (Option.some.inj h1).symm
  subst hs14
  exact ⟨by decide, by decide, w', hm, e, by rw [h2]; decide⟩

/-- C18: for every window (its vector has `windowSize` cells) whose cells total less than
`2 ^ 64`, every `beginIdx` and every `len1 ≤ len2` with `beginIdx - min(len2, windowSize) ≥ -1`,
both sums return and `sum(beginIdx, len1) ≤ sum(beginIdx, len2)`; hence at one query instant
`now` with `now - min(900, windowSize) ≥ -1`, `sum(now, 60) ≤ sum(now, 300) ≤ sum(now, 900)`. -/
theorem sum_monotone_in_len (w : StatsWindow) (hwf : WF w) (htot : w.elements_.sum < 2 ^ 64) :
    (∀ beginIdx len1 len2 : Int, len1 ≤ len2 → -1 ≤ beginIdx - min len2 w.windowSize_ →
      ∃ s1 s2, sum w beginIdx len1 = some s1 ∧ sum w beginIdx len2 = some s2 ∧ s1 ≤ s2) ∧
    (∀ now : Int, -1 ≤ now - min 900 w.windowSize_ →
      ∃ a1 a5 a15, sum w now 60 = some a1 ∧ sum w now 300 = some a5 ∧
        sum w now 900 = some a15 ∧ a1 ≤ a5 ∧ a5 ≤ a15) := by
  have gen : ∀ b len1 len2 : Int, len1 ≤ len2 → -1 ≤ b - min len2 w.windowSize_ →
      ∃ s1 s2, sum w b len1 = some s1 ∧ sum w b len2 = some s2 ∧ s1 ≤ s2 := by
    intro b len1 len2 hle hlo
    have hL : min len1 w.windowSize_ ≤ min len2 w.windowSize_ :=
      min_le_min hle (le_refl _)
    refine ⟨_, _, sum_cells w hwf b len1 (by omega), sum_cells w hwf b len2 hlo, ?_⟩
    by_cases c1 : min len1 w.windowSize_ ≤ 0 ∨ b - min len1 w.windowSize_ ≥ w.maxRingIdx_
    · rw [if_pos c1]
      exact Nat.zero_le _
    · have c2 : ¬ (min len2 w.windowSize_ ≤ 0 ∨ b - min len2 w.windowSize_ ≥ w.maxRingIdx_) := by
        omega
      rw [if_neg c1, if_neg c2]
      have hW : 0 < w.windowSize_ := by
        have := min_le_right len1 w.windowSize_
        omega
      have hW2 := min_le_right len2 w.windowSize_
      have hmin := min_le_left b w.maxRingIdx_
      have hbig := cellsDown_le_sum w.windowSize_ hW
        (min b w.maxRingIdx_ - (b - min len2 w.windowSize_)).toNat w.elements_
        (min b w.maxRingIdx_) (by omega)
      have hmono := cellsDown_mono w.elements_ w.windowSize_ (min b w.maxRingIdx_)
        (n := (min b w.maxRingIdx_ - (b - min len1 w.windowSize_)).toNat)
        (m := (min b w.maxRingIdx_ - (b - min len2 w.windowSize_)).toNat) (by omega)
      have hu : u64Mod = 2 ^ 64 := rfl
      rw [Nat.mod_eq_of_lt (by rw [hu]; omega), Nat.mod_eq_of_lt (by rw [hu]; omega)]
      exact hmono
  refine ⟨gen, ?_⟩
  intro now hlo
  have h300 : min (300 : Int) w.windowSize_ ≤ min 900 w.windowSize_ :=
    min_le_min (by decide) (le_refl _)
  obtain ⟨a1, a5, h1, h5, h15⟩ := gen now 60 300 (by decide) (by omega)
  obtain ⟨a5', a15, h5', h15', hle⟩ := gen now 300 900 (by decide) hlo
  rw [h5] at h5'
  have e : a5 = a5' := Option.some.inj h5'
  subst e
  exact ⟨a1, a5, a15, h1, h5, h15', h15, hle⟩

/-- Witness of `sum_monotone_in_len`: top index 5, size 3, cells `[7, 3, 11]`;
`sum(5, 1) = 11 ≤ sum(5, 3) = 21`. -/
theorem sum_monotone_in_len_witness :
    (WF ⟨5, 3, [7, 3, 11]⟩ ∧ ([7, 3, 11] : List Nat).sum < 2 ^ 64) ∧
    ((1 : Int) ≤ 3 ∧ (-1 : Int) ≤ 5 - min 3 3) ∧
    ∃ s1 s2, sum ⟨5, 3, [7, 3, 11]⟩ 5 1 = some s1 ∧ sum ⟨5, 3, [7, 3, 11]⟩ 5 3 = some s2 ∧
      s1 ≤ s2 ∧ s1 = 11 ∧ s2 = 21 := by
  obtain ⟨s1, s2, h1, h2, hle⟩ :=
    (sum_monotone_in_len ⟨5, 3, [7, 3, 11]⟩ (by decide) (by decide)).1 5 1 3
      (by decide) (by decide)
  have e1 : sum ⟨5, 3, [7, 3, 11]⟩ 5 1 = some 11 := by decide
  have e2 : sum ⟨5, 3, [7, 3, 11]⟩ 5 3 = some 21 := by decide
  refine ⟨by decide, by decide, s1, s2, h1, h2, hle, ?_, ?_⟩
  · rw [e1] at h1; exact (Option.some.inj h1).symm
  · rw [e2] at h2; exact (Option.some.inj h2).symm

/-- C19: for a window constructed with `windowSize = W > 0`, every run of `clear()` and
`insert(idx, val)` calls with `idx ≥ 0` returns, that is, every subscript `i % W` (truncating
`%`) that `insert` writes lies in `[0, W)`; afterwards the vector still has exactly `W` cells;
and in the state reached, `sum(beginIdx, len)` returns, that is, every subscript it reads lies
in `[0, W)`, whenever `beginIdx - min(len, W) ≥ -1`. -/
theorem ring_index_safety (W : Int) (hW : 0 < W) (calls : List Call)
    (hnn : ∀ c ∈ calls, ∀ i, c.idx = some i → 0 ≤ i) :
    ∃ w, runCalls (construct W) calls = some w ∧ w.windowSize_ = W ∧
      (w.elements_.length : Int) = W ∧
      ∀ beginIdx len : Int, -1 ≤ beginIdx - min len W →
        ∃ s, sum w beginIdx len = some s := by
  obtain ⟨w, hrun, hok⟩ := runCalls_ok calls (construct W) (tracks_construct hW).ok hnn
  have hwf : WF w := ⟨by rw [hok.size]; omega, by rw [hok.len, hok.size]⟩
  refine ⟨w, hrun, hok.size, by rw [hok.len]; omega, ?_⟩
  intro b len hlo
  exact ⟨_, sum_cells w hwf b len (by rw [hok.size]; exact hlo)⟩

/-- Witness of `ring_index_safety`: size 3, the run `insert(4, 1)`, `clear()`, `insert(9, 2)`,
`insert(8, 5)`, then `sum(9, 3) = 7`. -/
theorem ring_index_safety_witness :
    (0 : Int) < 3 ∧
    ∃ w, runCalls (construct 3)
        [Call.insert 4 1, Call.clear, Call.insert 9 2, Call.insert 8 5] = some w ∧
      w.elements_.length = 3 ∧ sum w 9 3 = some 7 := by
  obtain ⟨w, hrun, _, _, _⟩ := ring_index_safety 3 (by decide)
    [Call.insert 4 1, Call.clear, Call.insert 9 2, Call.insert 8 5] (by decide)
  have e : runCalls (construct 3)
      [Call.insert 4 1, Call.clear, Call.insert 9 2, Call.insert 8 5]
      = some ⟨9, 3, [2, 0, 5]⟩ := by decide
  have hw : w = ⟨9, 3, [2, 0, 5]⟩ := by
    rw [e] at hrun
    exact (Option.some.inj hrun).symm
  subst hw
  exact ⟨by decide, _, e, by decide, by decide⟩

/-! ## Theorems on `StatsShareDay` -/

namespace StatsShareDay

/-- With an hour below 24 `processShare` returns. -/
theorem processShare_eq {F : Type} [Add F] (score : Share → F) (s : StatsShareDay F)
    (hourIdx : Nat) (h : hourIdx < 24) (share : Share) :
    processShare score s hourIdx share = some
      { tally score s ⟨hourIdx, h⟩ share with
        modifyFlag_ :=
          (tally score s ⟨hourIdx, h⟩ share).modifyFlag_ &&& (1 <<< hourIdx) } := by
  unfold processShare
  rw [dif_pos h]

end StatsShareDay

open StatsShareDay

/-- C9: for every state, every `hourIdx < 24` and every share, `processShare(hourIdx, share)`
returns, and: if the result is ACCEPT, `shareAccept1h_[hourIdx]` and `shareAccept1d_` each grow
by `share_` modulo `2 ^ 64` while the reject counters are unchanged; otherwise
`shareReject1h_[hourIdx]` and `shareReject1d_` each grow by `share_` modulo `2 ^ 64` while the
accept counters and both score members are unchanged; in both cases the hourly accept and
reject counters of every other hour are unchanged. -/
theorem processShare_counters {F : Type} [Add F] (score : Share → F) (s : StatsShareDay F)
    (hourIdx : Nat) (h : hourIdx < 24) (share : Share) :
    ∃ s', processShare score s hourIdx share = some s' ∧
      (share.result_ = ShareResult.ACCEPT →
        s'.shareAccept1h_ ⟨hourIdx, h⟩
          = (s.shareAccept1h_ ⟨hourIdx, h⟩ + share.share_) % 2 ^ 64 ∧
        s'.shareAccept1d_ = (s.shareAccept1d_ + share.share_) % 2 ^ 64 ∧
        s'.shareReject1h_ = s.shareReject1h_ ∧ s'.shareReject1d_ = s.shareReject1d_) ∧
      (share.result_ ≠ ShareResult.ACCEPT →
        s'.shareReject1h_ ⟨hourIdx, h⟩
          = (s.shareReject1h_ ⟨hourIdx, h⟩ + share.share_) % 2 ^ 64 ∧
        s'.shareReject1d_ = (s.shareReject1d_ + share.share_) % 2 ^ 64 ∧
        s'.shareAccept1h_ = s.shareAccept1h_ ∧ s'.shareAccept1d_ = s.shareAccept1d_ ∧
        s'.score1h_ = s.score1h_ ∧ s'.score1d_ = s.score1d_) ∧
      (∀ j : Fin 24, j.val ≠ hourIdx →
        s'.shareAccept1h_ j = s.shareAccept1h_ j ∧ s'.shareReject1h_ j = s.shareReject1h_ j) := by
  by_cases ha : share.result_ = ShareResult.ACCEPT
  · refine ⟨_, processShare_eq score s hourIdx h share, ?_, ?_, ?_⟩
    · intro _
      simp [tally, ha, addU64, u64Mod]
    · intro hne; exact absurd ha hne
    · intro j hj
      have : j ≠ ⟨hourIdx, h⟩ := fun e => hj (by rw [e])
      simp [tally, ha, Function.update_noteq this]
  · refine ⟨_, processShare_eq score s hourIdx h share, ?_, ?_, ?_⟩
    · intro hacc; exact absurd hacc ha
    · intro _
      simp [tally, ha, addU64, u64Mod]
    · intro j hj
      have : j ≠ ⟨hourIdx, h⟩ := fun e => hj (by rw [e])
      simp [tally, ha, Function.update_noteq this]

/-- Witness of `processShare_counters`: on a fresh day an ACCEPT share of weight 4 in hour 3. -/
theorem processShare_counters_witness :
    (3 : Nat) < 24 ∧
    ∃ s', processShare (fun _ => (0 : Nat)) StatsShareDay.construct 3
        ⟨4, ShareResult.ACCEPT⟩ = some s' ∧
      s'.shareAccept1h_ 3 = 4 ∧ s'.shareAccept1d_ = 4 ∧ s'.shareReject1h_ 3 = 0 ∧
      s'.shareReject1d_ = 0 ∧ s'.shareAccept1h_ 2 = 0 := by
  obtain ⟨s', hrun, hacc, _, hother⟩ :=
    processShare_counters (fun _ => (0 : Nat)) StatsShareDay.construct 3 (by decide)
      ⟨4, ShareResult.ACCEPT⟩
  obtain ⟨a, b, c, d⟩ := hacc rfl
  refine ⟨by decide, s', hrun, ?_, ?_, ?_, ?_, ?_⟩
  · rw [show (3 : Fin 24) = ⟨3, by decide⟩ from rfl, a]; rfl
  · rw [b]; rfl
  · rw [c]; rfl
  · rw [d]; rfl
  · rw [(hother 2 (by decide)).1]; rfl

/-- C10, the source at a concrete input: on a freshly constructed day, `processShare(0, share)`
with an ACCEPT share of weight 1 leaves `modifyFlag_` at 0, so bit 0 is not set. -/
theorem processShare_flag_after_first_share :
    ∃ s', processShare (fun _ => (0 : Nat)) StatsShareDay.construct 0
        ⟨1, ShareResult.ACCEPT⟩ = some s' ∧
      s'.shareAccept1h_ 0 = 1 ∧ s'.modifyFlag_ = 0 ∧ Nat.testBit s'.modifyFlag_ 0 = false := by
  refine ⟨_, processShare_eq _ _ 0 (by decide) _, ?_, ?_, ?_⟩ <;> decide

namespace StatsShareDay

theorem tally_modifyFlag {F : Type} [Add F] (score : Share → F) (s : StatsShareDay F)
    (i : Fin 24) (share : Share) : (tally score s i share).modifyFlag_ = s.modifyFlag_ := by
  unfold tally
  split <;> rfl

/-- The bits of two different hours have nothing in common. -/
theorem hour_bits_disjoint :
    ∀ h1 < 24, ∀ h2 < 24, h1 ≠ h2 → (1 <<< h1) &&& (1 <<< h2) = 0 := by
  decide

/-- The daily accept counter after one call. -/
theorem tally_accept1d {F : Type} [Add F] (score : Share → F) (s : StatsShareDay F)
    (i : Fin 24) (share : Share) :
    (tally score s i share).shareAccept1d_ =
      if share.result_ = ShareResult.ACCEPT then addU64 s.shareAccept1d_ share.share_
      else s.shareAccept1d_ := by
  unfold tally
  split <;> rfl

/-- The daily reject counter after one call. -/
theorem tally_reject1d {F : Type} [Add F] (score : Share → F) (s : StatsShareDay F)
    (i : Fin 24) (share : Share) :
    (tally score s i share).shareReject1d_ =
      if share.result_ = ShareResult.ACCEPT then s.shareReject1d_
      else addU64 s.shareReject1d_ share.share_ := by
  unfold tally
  split <;> rfl

theorem addU64_lt (a b : Nat) : addU64 a b < u64Mod :=
  Nat.mod_lt _ (by unfold u64Mod; positivity)

theorem acceptTotal_cons (p : Nat × Share) (rest : List (Nat × Share)) :
    acceptTotal (p :: rest)
      = (if p.2.result_ = ShareResult.ACCEPT then p.2.share_ else 0) + acceptTotal rest := by
  unfold acceptTotal
  by_cases h : p.2.result_ = ShareResult.ACCEPT <;> simp [List.filter_cons, h]

theorem rejectTotal_cons (p : Nat × Share) (rest : List (Nat × Share)) :
    rejectTotal (p :: rest)
      = (if p.2.result_ = ShareResult.ACCEPT then 0 else p.2.share_) + rejectTotal rest := by
  unfold rejectTotal
  by_cases h : p.2.result_ = ShareResult.ACCEPT <;> simp [List.filter_cons, h]

/-- A run with every hour below 24 returns, and the daily counters grow by the totals of the
run, modulo `2 ^ 64`. -/
theorem processAll_daily {F : Type} [Add F] (score : Share → F) :
    ∀ (seq : List (Nat × Share)) (s : StatsShareDay F), (∀ p ∈ seq, p.1 < 24) →
      ∃ t, processAll score s seq = some t ∧
        t.shareAccept1d_ % u64Mod = (s.shareAccept1d_ + acceptTotal seq) % u64Mod ∧
        t.shareReject1d_ % u64Mod = (s.shareReject1d_ + rejectTotal seq) % u64Mod ∧
        (s.shareAccept1d_ < u64Mod → t.shareAccept1d_ < u64Mod) ∧
        (s.shareReject1d_ < u64Mod → t.shareReject1d_ < u64Mod) := by
  intro seq
  induction seq with
  | nil =>
    intro s _
    exact ⟨s, rfl, by simp [acceptTotal], by simp [rejectTotal], id, id⟩
  | cons p rest ih =>
    intro s hh
    have hp : p.1 < 24 := hh p (by simp)
    obtain ⟨t, hrun, ha, hr, hla, hlr⟩ := ih
      { tally score s ⟨p.1, hp⟩ p.2 with
        modifyFlag_ := (tally score s ⟨p.1, hp⟩ p.2).modifyFlag_ &&& (1 <<< p.1) }
      (fun q hq => hh q (by simp [hq]))
    simp only [tally_accept1d, tally_reject1d] at ha hr hla hlr
    refine ⟨t, ?_, ?_, ?_, ?_, ?_⟩
    · simp only [processAll, processShare_eq score s p.1 hp p.2]
      exact hrun
    · rw [ha, acceptTotal_cons]
      split
      · unfold addU64
        rw [Nat.add_mod, Nat.mod_mod, ← Nat.add_mod, Nat.add_assoc]
      · rw [Nat.zero_add]
    · rw [hr, rejectTotal_cons]
      split
      · rw [Nat.zero_add]
      · unfold addU64
        rw [Nat.add_mod, Nat.mod_mod, ← Nat.add_mod, Nat.add_assoc]
    · intro h
      apply hla
      split
      · exact addU64_lt _ _
      · exact h
    · intro h
      apply hlr
      split
      · exact h
      · exact addU64_lt _ _

end StatsShareDay

/-- C11: for every finite list of `(hourIdx, share)` pairs with `hourIdx < 24`, applied in order
by `processShare` to a freshly constructed `StatsShareDay`, every call returns, `shareAccept1d_`
is, modulo `2 ^ 64`, the total of `share_` over the shares whose result is ACCEPT, and
`shareReject1d_` is, modulo `2 ^ 64`, the total of `share_` over all the other shares. -/
theorem replay_daily_totals {F : Type} [Add F] [Zero F] (score : Share → F)
    (seq : List (Nat × Share)) (hh : ∀ p ∈ seq, p.1 < 24) :
    ∃ t, processAll score (StatsShareDay.construct : StatsShareDay F) seq = some t ∧
      t.shareAccept1d_ = acceptTotal seq % 2 ^ 64 ∧
      t.shareReject1d_ = rejectTotal seq % 2 ^ 64 := by
  obtain ⟨t, hrun, ha, hr, hla, hlr⟩ :=
    processAll_daily score seq (StatsShareDay.construct : StatsShareDay F) hh
  have hz : (0 : Nat) < u64Mod := by unfold u64Mod; positivity
  have h1 := hla hz
  have h2 := hlr hz
  refine ⟨t, hrun, ?_, ?_⟩
  · rw [Nat.mod_eq_of_lt h1] at ha
    rw [ha]
    simp [StatsShareDay.construct, u64Mod]
  · rw [Nat.mod_eq_of_lt h2] at hr
    rw [hr]
    simp [StatsShareDay.construct, u64Mod]

/-- Witness of `replay_daily_totals`: shares of weight 4 (ACCEPT, hour 3), 2 (REJECT, hour 5)
and 3 (ACCEPT, hour 3) give an accept total of 7 and a reject total of 2. -/
theorem replay_daily_totals_witness :
    ∃ t, processAll (fun _ => (0 : Nat)) StatsShareDay.construct
        [(3, ⟨4, ShareResult.ACCEPT⟩), (5, ⟨2, ShareResult.REJECT⟩),
          (3, ⟨3, ShareResult.ACCEPT⟩)] = some t ∧
      t.shareAccept1d_ = 7 ∧ t.shareReject1d_ = 2 := by
  obtain ⟨t, hrun, ha, hr⟩ := replay_daily_totals (fun _ => (0 : Nat))
    [(3, ⟨4, ShareResult.ACCEPT⟩), (5, ⟨2, ShareResult.REJECT⟩), (3, ⟨3, ShareResult.ACCEPT⟩)]
    (by decide)
  exact ⟨t, hrun, by rw [ha]; decide, by rw [hr]; decide⟩

/-- C13: for every `StatsShareDay` state, whatever its `modifyFlag_`, any two different hours
`h1`, `h2` below 24 and any two shares, `processShare(h1, s1)` followed by
`processShare(h2, s2)` returns and leaves `modifyFlag_` at 0. -/
theorem processShare_flag_collapses {F : Type} [Add F] (score : Share → F)
    (s : StatsShareDay F) (h1 h2 : Nat) (hh1 : h1 < 24) (hh2 : h2 < 24) (hne : h1 ≠ h2)
    (s1 s2 : Share) :
    ∃ t1 t2, processShare score s h1 s1 = some t1 ∧ processShare score t1 h2 s2 = some t2 ∧
      t2.modifyFlag_ = 0 := by
  refine ⟨_, _, processShare_eq score s h1 hh1 s1, processShare_eq score _ h2 hh2 s2, ?_⟩
  simp only [tally_modifyFlag]
  rw [Nat.land_assoc, hour_bits_disjoint h1 hh1 h2 hh2 hne]
  simp

/-- Witness of `processShare_flag_collapses`: from a flag with every bit of the 24 hours set,
hour 3 and then hour 5. -/
theorem processShare_flag_collapses_witness :
    ((3 : Nat) < 24 ∧ (5 : Nat) < 24 ∧ (3 : Nat) ≠ 5) ∧
    ∃ t1 t2,
      processShare (fun _ => (0 : Nat))
        { (StatsShareDay.construct : StatsShareDay Nat) with modifyFlag_ := 0xFFFFFF } 3
        ⟨4, ShareResult.ACCEPT⟩ = some t1 ∧
      processShare (fun _ => (0 : Nat)) t1 5 ⟨2, ShareResult.REJECT⟩ = some t2 ∧
      t2.modifyFlag_ = 0 :=
  ⟨by decide, processShare_flag_collapses (fun _ => (0 : Nat)) _ 3 5 (by decide) (by decide)
    (by decide) ⟨4, ShareResult.ACCEPT⟩ ⟨2, ShareResult.REJECT⟩⟩

namespace StatsShareDay

/-- Adding `x` to one hourly entry, modulo `2 ^ 64`, adds `x` to the total of the 24 entries,
modulo `2 ^ 64`. -/
theorem hourTotal_update (f : Fin 24 → Nat) (i : Fin 24) (x : Nat) :
    hourTotal (Function.update f i (addU64 (f i) x)) % u64Mod = (hourTotal f + x) % u64Mod := by
  unfold hourTotal
  rw [Finset.sum_update_of_mem (Finset.mem_univ i),
    Finset.sum_eq_add_sum_diff_singleton (Finset.mem_univ i) f]
  unfold addU64
  rw [Nat.add_mod, Nat.mod_mod, ← Nat.add_mod]
  congr 1
  omega

theorem balanced_tally {F : Type} [Add F] (score : Share → F) (s : StatsShareDay F)
    (i : Fin 24) (share : Share) (h : Balanced s) : Balanced (tally score s i share) := by
  unfold tally
  split
  · refine ⟨?_, h.2⟩
    simp only
    rw [hourTotal_update]
    unfold addU64
    rw [Nat.mod_mod, Nat.add_mod, h.1, ← Nat.add_mod]
  · refine ⟨h.1, ?_⟩
    simp only
    rw [hourTotal_update]
    unfold addU64
    rw [Nat.mod_mod, Nat.add_mod, h.2, ← Nat.add_mod]

/-- Every run with hours below 24 keeps the hourly entries and the daily counters in
agreement. -/
theorem processAll_balanced {F : Type} [Add F] (score : Share → F) :
    ∀ (seq : List (Nat × Share)) (s : StatsShareDay F), (∀ p ∈ seq, p.1 < 24) → Balanced s →
      ∃ t, processAll score s seq = some t ∧ Balanced t := by
  intro seq
  induction seq with
  | nil => intro s _ hb; exact ⟨s, rfl, hb⟩
  | cons p rest ih =>
    intro s hh hb
    have hp : p.1 < 24 := hh p (by simp)
    obtain ⟨t, hrun, ht⟩ := ih
      { tally score s ⟨p.1, hp⟩ p.2 with
        modifyFlag_ := (tally score s ⟨p.1, hp⟩ p.2).modifyFlag_ &&& (1 <<< p.1) }
      (fun q hq => hh q (by simp [hq])) (balanced_tally score s ⟨p.1, hp⟩ p.2 hb)
    refine ⟨t, ?_, ht⟩
    simp only [processAll, processShare_eq score s p.1 hp p.2]
    exact hrun

end StatsShareDay

/-- C17: in every state reached from a freshly constructed `StatsShareDay` by a run of
`processShare` calls with `hourIdx < 24` (every such run returns), the total of the 24 entries of
`shareAccept1h_` equals `shareAccept1d_` modulo `2 ^ 64`, and the total of the 24 entries of
`shareReject1h_` equals `shareReject1d_` modulo `2 ^ 64`. -/
theorem hourly_entries_sum_to_daily {F : Type} [Add F] [Zero F] (score : Share → F)
    (seq : List (Nat × Share)) (hh : ∀ p ∈ seq, p.1 < 24) :
    ∃ t, processAll score (StatsShareDay.construct : StatsShareDay F) seq = some t ∧
      hourTotal t.shareAccept1h_ % 2 ^ 64 = t.shareAccept1d_ % 2 ^ 64 ∧
      hourTotal t.shareReject1h_ % 2 ^ 64 = t.shareReject1d_ % 2 ^ 64 := by
  obtain ⟨t, hrun, hb⟩ := processAll_balanced score seq
    (StatsShareDay.construct : StatsShareDay F) hh
    ⟨by simp [StatsShareDay.construct, hourTotal], by simp [StatsShareDay.construct, hourTotal]⟩
  exact ⟨t, hrun, hb.1, hb.2⟩

/-- Witness of `hourly_entries_sum_to_daily` on three shares in hours 3, 5 and 3. -/
theorem hourly_entries_sum_to_daily_witness :
    (∀ p ∈ [((3 : Nat), (⟨4, ShareResult.ACCEPT⟩ : Share)), (5, ⟨2, ShareResult.REJECT⟩),
        (3, ⟨3, ShareResult.ACCEPT⟩)], p.1 < 24) ∧
    ∃ t, processAll (fun _ => (0 : Nat)) StatsShareDay.construct
        [(3, ⟨4, ShareResult.ACCEPT⟩), (5, ⟨2, ShareResult.REJECT⟩),
          (3, ⟨3, ShareResult.ACCEPT⟩)] = some t ∧
      hourTotal t.shareAccept1h_ % 2 ^ 64 = t.shareAccept1d_ % 2 ^ 64 ∧
      hourTotal t.shareReject1h_ % 2 ^ 64 = t.shareReject1d_ % 2 ^ 64 :=
  ⟨by decide, hourly_entries_sum_to_daily (fun _ => (0 : Nat)) _ (by decide)⟩

/-! ## Theorems on `WorkerKey` -/

/-- C16: for all keys, `k1 == k2` holds exactly when `userId_` and `workerId_` agree, so `==` is
reflexive, symmetric and transitive; and whenever `k1 == k2` the hash values of `k1` and `k2`
are equal, whatever functions the component hashes on `int32_t` and `int64_t` are. -/
theorem workerKey_lawful (hash32 hash64 : Int → Nat) (k1 k2 k3 : WorkerKey) :
    (WorkerKey.opEq k1 k2 = true ↔ k1.userId_ = k2.userId_ ∧ k1.workerId_ = k2.workerId_) ∧
    WorkerKey.opEq k1 k1 = true ∧
    WorkerKey.opEq k1 k2 = WorkerKey.opEq k2 k1 ∧
    (WorkerKey.opEq k1 k2 = true → WorkerKey.opEq k2 k3 = true →
      WorkerKey.opEq k1 k3 = true) ∧
    (WorkerKey.opEq k1 k2 = true →
      WorkerKey.hash hash32 hash64 k1 = WorkerKey.hash hash32 hash64 k2) := by
  have key : ∀ a b : WorkerKey,
      WorkerKey.opEq a b = true ↔ a.userId_ = b.userId_ ∧ a.workerId_ = b.workerId_ := by
    intro a b
    unfold WorkerKey.opEq
    split <;> simp_all
  refine ⟨key k1 k2, (key k1 k1).2 ⟨rfl, rfl⟩, ?_, ?_, ?_⟩
  · by_cases h : WorkerKey.opEq k1 k2 = true
    · have h' := (key k1 k2).1 h
      rw [h, (key k2 k1).2 ⟨h'.1.symm, h'.2.symm⟩]
    · have h2 : ¬ WorkerKey.opEq k2 k1 = true := fun e =>
        h ((key k1 k2).2 ⟨((key k2 k1).1 e).1.symm, ((key k2 k1).1 e).2.symm⟩)
      rw [Bool.not_eq_true] at h h2
      rw [h, h2]
  · intro h12 h23
    have a := (key k1 k2).1 h12
    have b := (key k2 k3).1 h23
    exact (key k1 k3).2 ⟨a.1.trans b.1, a.2.trans b.2⟩
  · intro h12
    have a := (key k1 k2).1 h12
    unfold WorkerKey.hash
    rw [a.1, a.2]

/-- Witness of `workerKey_lawful`: two keys built from the same members are equal and hash
alike; here the component hashes are `x ↦ |x|` and `x ↦ |x| + 7`. -/
theorem workerKey_lawful_witness :
    WorkerKey.opEq ⟨1, 2⟩ ⟨1, 2⟩ = true ∧ WorkerKey.opEq ⟨1, 2⟩ ⟨1, 3⟩ = false ∧
    WorkerKey.hash Int.natAbs (fun x => x.natAbs + 7) ⟨1, 2⟩
      = WorkerKey.hash Int.natAbs (fun x => x.natAbs + 7) ⟨1, 2⟩ ∧
    WorkerKey.hash Int.natAbs (fun x => x.natAbs + 7) ⟨1, 2⟩ = 19 :=
  ⟨by decide, by decide,
    (workerKey_lawful Int.natAbs (fun x => x.natAbs + 7) ⟨1, 2⟩ ⟨1, 2⟩ ⟨1, 2⟩).2.2.2.2
      (by decide),
    by decide⟩

end BtcPool
